import Mathlib

/-!
# iLogtail: decoder selection and the metric reader

A shallow embedding of

* `helper/decoder/decoder.go` (`GetDecoder`, `GetDecoderWithOptions`,
  `RegisterDecodersAsExtension`), and
* `pkg/protocol/converter/converter_metric.go` (`metricReader`),

together with the parts of the Go standard library they call (`strings`, `sort`,
`strconv`, `time`).

Go strings are sequences of bytes; they are embedded as `List UInt8`.  A Go result
pair `(value, error)` is embedded as a pair whose error component is `none` for `nil`.
-/

/-- A Go `string`: an immutable sequence of bytes. -/
abbrev GoString := List UInt8

/-- A Go value that may be `nil` (an interface value, an `error`). -/
abbrev Nilable (α : Type) := Option α

/-- UTF-8 encoding of one code point, as the Go compiler encodes string literals. -/
def utf8EncodeRune (c : Char) : List UInt8 :=
  let n := c.toNat
  if n < 0x80 then [UInt8.ofNat n]
  else if n < 0x800 then [UInt8.ofNat (0xC0 + n / 0x40), UInt8.ofNat (0x80 + n % 0x40)]
  else if n < 0x10000 then
    [UInt8.ofNat (0xE0 + n / 0x1000), UInt8.ofNat (0x80 + n / 0x40 % 0x40),
     UInt8.ofNat (0x80 + n % 0x40)]
  else
    [UInt8.ofNat (0xF0 + n / 0x40000), UInt8.ofNat (0x80 + n / 0x1000 % 0x40),
     UInt8.ofNat (0x80 + n / 0x40 % 0x40), UInt8.ofNat (0x80 + n % 0x40)]

/-- A Go string literal. -/
def lit (s : String) : GoString := s.data.flatMap utf8EncodeRune

/-- Go's slice expression `s[:i]` for `0 ≤ i ≤ len(s)`. -/
def sliceTo (s : GoString) (i : Int) : GoString := s.take i.toNat

/-- Go's slice expression `s[i:]` for `0 ≤ i ≤ len(s)`. -/
def sliceFrom (s : GoString) (i : Int) : GoString := s.drop i.toNat

/-- The errors the embedded code returns or declares.

* `NoSuchDecoder`: the value `errors.New("no such decoder")` of the package variable
  `errDecoderNotFound` of `decoder.go`;
* `NotFound`: the failure of the extension lookup, an error made in package `extensions`
  and so another value than the unexported variable of package `decoder`;
* `MissingRequiredField`: `fmt.Errorf("metrics data must contains keys: %s, %s", ...)` of
  `metricReader.set`;
* `MalformedLabel`: `fmt.Errorf("failed to peed label key")` of `readSortedLabels`. -/
inductive Error where
  | NoSuchDecoder
  | NotFound
  | MissingRequiredField
  | MalformedLabel
  deriving DecidableEq, Repr

/-! ## The Go standard library: `strings` -/

/-- The slow paths of `strings.ToLower` and `strings.TrimSpace`, taken when the string holds
a byte `≥ utf8.RuneSelf`.  They consult the Unicode tables of package `unicode`, which are
a parameter of this development. -/
structure Unicode where
  /-- Go's `strings.Map(unicode.ToLower, s)`. -/
  mapToLower : GoString → GoString
  /-- Go's `strings.TrimFunc(s, unicode.IsSpace)`. -/
  trimFuncIsSpace : GoString → GoString
  /-- Go's `strings.TrimRightFunc(s, unicode.IsSpace)`. -/
  trimRightFuncIsSpace : GoString → GoString

namespace strings

/-- The constant `utf8.RuneSelf`: bytes below it are single-byte runes. -/
def RuneSelf : UInt8 := 0x80

/-- The table `asciiSpace`: tab, newline, vertical tab, form feed, carriage return, space. -/
def asciiSpace (c : UInt8) : Bool :=
  c = 9 ∨ c = 10 ∨ c = 11 ∨ c = 12 ∨ c = 13 ∨ c = 32

/-- One byte of the ASCII fast path of `ToLower`: `'A'..'Z'` gets `'a' - 'A'` added. -/
def lowerByte (c : UInt8) : UInt8 :=
  if 65 ≤ c.toNat ∧ c.toNat ≤ 90 then UInt8.ofNat (c.toNat + 32) else c

/-- Go's `strings.ToLower`: an ASCII-only string is lower-cased byte by byte, any other
string goes through `Map(unicode.ToLower, s)`. -/
def ToLower (u : Unicode) (s : GoString) : GoString :=
  if s.all (fun c => decide (c.toNat < RuneSelf.toNat)) then s.map lowerByte
  else u.mapToLower s

/-- The second loop of `strings.TrimSpace`, on `s[start:]`: trailing ASCII space is cut
from the end; meeting a non-ASCII byte hands over to `TrimRightFunc`. -/
def TrimSpace.right (u : Unicode) (s : GoString) : GoString :=
  let kept := (s.reverse.dropWhile asciiSpace).reverse
  match kept.getLast? with
  | none => []
  | some c => if RuneSelf.toNat ≤ c.toNat then u.trimRightFuncIsSpace kept else kept

/-- Go's `strings.TrimSpace`: leading ASCII space is skipped; meeting a non-ASCII byte hands
the rest over to `TrimFunc`; otherwise the end is trimmed the same way. -/
def TrimSpace (u : Unicode) (s : GoString) : GoString :=
  let rest := s.dropWhile asciiSpace
  match rest with
  | [] => []
  | c :: _ => if RuneSelf.toNat ≤ c.toNat then u.trimFuncIsSpace rest else TrimSpace.right u rest

/-- Go's `strings.IndexByte`: index of the first `c` in `s`, or `-1`. -/
def IndexByte : GoString → UInt8 → Int
  | [], _ => -1
  | b :: s, c => if b = c then 0 else
      let r := IndexByte s c
      if r < 0 then -1 else r + 1

/-- Go's `strings.LastIndexByte`: index of the last `c` in `s`, or `-1`. -/
def LastIndexByte : GoString → UInt8 → Int
  | [], _ => -1
  | b :: s, c =>
      let r := LastIndexByte s c
      if 0 ≤ r then r + 1 else if b = c then 0 else -1

/-- Go's `strings.Index`: index of the first occurrence of `substr` in `s`, or `-1`. -/
def Index : GoString → GoString → Int
  | [], substr => if substr.isEmpty then 0 else -1
  | b :: s, substr => if substr.isPrefixOf (b :: s) then 0 else
      let r := Index s substr
      if r < 0 then -1 else r + 1

/-- Go's `strings.Count(s, substr)` for a one-byte `substr` (the `bytealg.CountString`
case, the only one the embedded code reaches). -/
def Count (s : GoString) (sep : UInt8) : Nat := s.count sep

/-- The loop of `genSplit` for a one-byte separator: at most `k` further cuts, then the
remainder is the last element. -/
def genSplit.loop (sep : UInt8) : Nat → GoString → List GoString
  | 0, s => [s]
  | k + 1, s =>
      let m := IndexByte s sep
      if m < 0 then [s] else sliceTo s m :: genSplit.loop sep k (sliceFrom s (m + 1))

/-- Go's `strings.SplitN(s, sep, n)` for a one-byte `sep` (`genSplit(s, sep, 0, n)`):
`n = 0` gives nil, `n < 0` means all substrings, `n` is capped at `len(s) + 1`, and the
last of the `n` substrings is the unsplit remainder. -/
def SplitN (s : GoString) (sep : UInt8) (n : Int) : List GoString :=
  if n = 0 then [] else
  let n := if n < 0 then (Count s sep : Int) + 1 else n
  let n := if n > (s.length : Int) + 1 then (s.length : Int) + 1 else n
  genSplit.loop sep (n - 1).toNat s

end strings

/-! ## The Go standard library: string comparison and `sort.Strings` -/

/-- Go's `a < b` on strings: byte-wise lexicographic, a proper prefix is smaller. -/
def stringLess : GoString → GoString → Bool
  | _, [] => false
  | [], _ :: _ => true
  | a :: as, b :: bs =>
      if a.toNat < b.toNat then true
      else if b.toNat < a.toNat then false
      else stringLess as bs

/-- Go's `a <= b` on strings, that is `!(b < a)`. -/
def stringLE (a b : GoString) : Prop := stringLess b a = false

instance stringLE.decidable : DecidableRel stringLE :=
  fun a b => inferInstanceAs (Decidable (stringLess b a = false))

namespace sort

/-- Go's `sort.Strings`: the slice rearranged into increasing order.  Equal strings are
indistinguishable values, so the outcome is the one sorted rearrangement whatever the
algorithm; it is computed here by insertion. -/
def Strings (x : List GoString) : List GoString := x.insertionSort stringLE

end sort

/-! ## `helper/decoder` -/

namespace time

/-- An instant as `time.Time` holds it: the seconds since January 1, year 1, and the
nanoseconds within the second. -/
structure Time where
  sec : Int
  nsec : Int
  deriving DecidableEq, Repr

end time

/-- The protocol-name constants of `helper/decoder/common` that `decoder.go` switches
on.  Their spellings are a parameter of this development. -/
structure common where
  ProtocolSLS : GoString
  ProtocolPrometheus : GoString
  ProtocolInflux : GoString
  ProtocolInfluxdb : GoString
  ProtocolStatsd : GoString
  ProtocolOTLPLogV1 : GoString
  ProtocolOTLPMetricV1 : GoString
  ProtocolOTLPTraceV1 : GoString
  ProtocolRaw : GoString
  ProtocolPyroscope : GoString

/-- The ten built-in names, in the order of the `switch` of `GetDecoderWithOptions`. -/
def common.builtin (c : common) : List GoString :=
  [c.ProtocolSLS, c.ProtocolPrometheus, c.ProtocolInflux, c.ProtocolInfluxdb,
   c.ProtocolStatsd, c.ProtocolOTLPLogV1, c.ProtocolOTLPMetricV1, c.ProtocolOTLPTraceV1,
   c.ProtocolRaw, c.ProtocolPyroscope]

/-- The constants are pairwise different: Go rejects a `switch` with a repeated constant
case, so the package only compiles when this holds. -/
def common.Distinct (c : common) : Prop := c.builtin.Nodup

/-- Every constant is its own normal form: lower-casing and trimming leaves it as it is. -/
def common.Normal (u : Unicode) (c : common) : Prop :=
  ∀ p ∈ c.builtin, strings.TrimSpace u (strings.ToLower u p) = p

/-- The values an `extensions.Decoder` returned by this package can hold: a pointer to one
of the decoder structs with the fields set by `GetDecoderWithOptions`, or a decoder made
by an externally supplied factory. -/
inductive Decoder where
  /-- Go's `&sls.Decoder{}`. -/
  | sls
  /-- Go's `&prometheus.Decoder{}`. -/
  | prometheus
  /-- Go's `&influxdb.Decoder{FieldsExtend: ...}`. -/
  | influxdb (FieldsExtend : Bool)
  /-- Go's `&statsd.Decoder{Time: ...}`. -/
  | statsd (Time : time.Time)
  /-- Go's `&opentelemetry.Decoder{Format: ...}`. -/
  | opentelemetry (Format : GoString)
  /-- Go's `&raw.Decoder{DisableUncompress: ...}`. -/
  | raw (DisableUncompress : Bool)
  /-- Go's `&pyroscope.Decoder{}`. -/
  | pyroscope
  /-- A decoder built by an extension's factory, identified by a tag. -/
  | external (tag : Nat)
  deriving DecidableEq, Repr

namespace decoder

/-- The struct `Option` of `decoder.go`. -/
structure Option where
  FieldsExtend : Bool
  DisableUncompress : Bool
  deriving DecidableEq, Repr

end decoder

namespace extensions

/-- Modelled from the spec: the extension registry of `pkg/pipeline/extensions`, whose
source is not part of this development.  The spec calls it "a process-wide, name-keyed
registry of externally supplied Decoder factories", "mapping protocol name →
zero-argument Decoder factory", where "the later registration wins".  The state holds the
registrations, newest first.  The spec does not say whether two names are the same key
when they are equal byte for byte or when they are equal after normalisation, so the key
that the registry makes of a name is part of the state: the identity for an exact
registry, the normal form for a case-insensitive one. -/
structure Registry where
  creators : List (GoString × (Unit → Decoder))
  key : GoString → GoString

/-- Modelled from the spec: `extensions.AddDecoderCreator`, "registering twice for the same
name is permitted and the later registration wins". -/
def AddDecoderCreator (reg : Registry) (protocol : GoString) (creator : Unit → Decoder) :
    Registry :=
  { reg with creators := (protocol, creator) :: reg.creators }

/-- Modelled from the spec: `extensions.CreateDecoder`, the extension lookup.  The newest
factory registered under the same key as the requested name is called; "unknown name
with no extension match ⇒ `NotFound` error; no panics are raised by resolution itself". -/
def CreateDecoder (reg : Registry) (protocol : GoString) (_option : decoder.Option) :
    Nilable Decoder × Nilable Error :=
  match reg.creators.find? (fun e => decide (reg.key e.1 = reg.key protocol)) with
  | some e => (some (e.2 ()), none)
  | none => (none, some Error.NotFound)

end extensions

namespace decoder

/-- The package variable `errDecoderNotFound = errors.New("no such decoder")`; no
statement of `decoder.go` returns it. -/
def errDecoderNotFound : Error := Error.NoSuchDecoder

/-- The function `GetDecoderWithOptions` of `decoder.go`.  The `switch` compares the
normalised name with the constants in source order; `now` is what `time.Now()` reads and
`reg` the state of the extension registry. -/
def GetDecoderWithOptions (u : Unicode) (c : common) (now : time.Time)
    (reg : extensions.Registry) (format : GoString) (option : Option) :
    Nilable Decoder × Nilable Error :=
  let tag := strings.TrimSpace u (strings.ToLower u format)
  if tag = c.ProtocolSLS then (some Decoder.sls, none)
  else if tag = c.ProtocolPrometheus then (some Decoder.prometheus, none)
  else if tag = c.ProtocolInflux ∨ tag = c.ProtocolInfluxdb then
    (some (Decoder.influxdb option.FieldsExtend), none)
  else if tag = c.ProtocolStatsd then (some (Decoder.statsd now), none)
  else if tag = c.ProtocolOTLPLogV1 then (some (Decoder.opentelemetry c.ProtocolOTLPLogV1), none)
  else if tag = c.ProtocolOTLPMetricV1 then
    (some (Decoder.opentelemetry c.ProtocolOTLPMetricV1), none)
  else if tag = c.ProtocolOTLPTraceV1 then
    (some (Decoder.opentelemetry c.ProtocolOTLPTraceV1), none)
  else if tag = c.ProtocolRaw then (some (Decoder.raw option.DisableUncompress), none)
  else if tag = c.ProtocolPyroscope then (some Decoder.pyroscope, none)
  else extensions.CreateDecoder reg format option

/-- The function `GetDecoder` of `decoder.go`. -/
def GetDecoder (u : Unicode) (c : common) (now : time.Time) (reg : extensions.Registry)
    (format : GoString) : Nilable Decoder × Nilable Error :=
  GetDecoderWithOptions u c now reg format { FieldsExtend := false, DisableUncompress := false }

end decoder

/-! ## `pkg/protocol/converter` -/

namespace protocol

/-- One field of a record: `protocol.Log_Content`. -/
structure Log_Content where
  Key : GoString
  Value : GoString
  deriving DecidableEq, Repr

/-- A record: `protocol.Log`, an ordered list of fields. -/
structure Log where
  Contents : List Log_Content
  deriving DecidableEq, Repr

def metricNameKey : GoString := lit "__name__"
def metricLabelsKey : GoString := lit "__labels__"
def metricTimeNanoKey : GoString := lit "__time_nano__"
def metricValueKey : GoString := lit "__value__"
def metricValueTypeKey : GoString := lit "__type__"

/-- The struct `metricReader`. -/
structure metricReader where
  name : GoString
  labels : GoString
  value : GoString
  valueType : GoString
  timestamp : GoString
  deriving DecidableEq, Repr

/-- The struct `metricLabel`. -/
structure metricLabel where
  key : GoString
  value : GoString
  deriving DecidableEq, Repr

namespace metricReader

/-- The method `readNames`. -/
def readNames (r : metricReader) : GoString × GoString :=
  let idx := strings.LastIndexByte r.name 58
  if idx ≤ 0 then (r.name, lit "value")
  else (sliceTo r.name idx, sliceFrom r.name (idx + 1))

/-- The method `countLabels`. -/
def countLabels (r : metricReader) : Int :=
  if r.labels.length = 0 then 0
  else
    let n : Int := strings.Count r.labels 124
    n + 1

/-- The `for` loop of `readSortedLabels` over the sorted segments; `none` is the early
`return nil, fmt.Errorf(...)`. -/
def readSortedLabels.loop : List GoString → Option (List metricLabel)
  | [] => some []
  | v :: rest =>
      let idx := strings.Index v (lit "#$#")
      if idx < 0 then none
      else (readSortedLabels.loop rest).map
        (fun labels => { key := sliceTo v idx, value := sliceFrom v (idx + 3) } :: labels)

/-- The method `readSortedLabels`; a nil slice is the empty list. -/
def readSortedLabels (r : metricReader) : List metricLabel × Nilable Error :=
  let n := r.countLabels
  if n = 0 then ([], none)
  else
    let segments := sort.Strings (strings.SplitN r.labels 124 n)
    match readSortedLabels.loop segments with
    | none => ([], some Error.MalformedLabel)
    | some labels => (labels, none)

/-- The method `reset`. -/
def reset (r : metricReader) : metricReader :=
  { r with labels := [], name := [], value := [], valueType := [], timestamp := [] }

/-- The body of the `for` loop of `set`: one field of the record. -/
def set.step (r : metricReader) (v : Log_Content) : metricReader :=
  if v.Key = metricNameKey then { r with name := v.Value }
  else if v.Key = metricLabelsKey then { r with labels := v.Value }
  else if v.Key = metricTimeNanoKey then { r with timestamp := v.Value }
  else if v.Key = metricValueKey then { r with value := v.Value }
  else if v.Key = metricValueTypeKey then { r with valueType := v.Value }
  else r

/-- The method `set`: the reader after the call and the returned error. -/
def set (r : metricReader) (log : Log) : metricReader × Nilable Error :=
  let r := log.Contents.foldl set.step r.reset
  if r.name.length = 0 ∨ r.value.length = 0 then (r, some Error.MissingRequiredField)
  else (r, none)

end metricReader

/-- A reader holding the given `__name__`. -/
def readerWithName (name : GoString) : metricReader :=
  { name := name, labels := [], value := [], valueType := [], timestamp := [] }

/-- A reader holding the given `__labels__`. -/
def readerWithLabels (labels : GoString) : metricReader :=
  { name := [], labels := labels, value := [], valueType := [], timestamp := [] }

end protocol

/-! ## Notions used to state the label properties -/

namespace protocol

/-- The segments of a `__labels__` string: the pieces between its `'|'` bytes. -/
def labelSegments (s : GoString) : List GoString := s.splitOn 124

/-- The delimiter `#$#` between the key and the value of a label. -/
def labelDelim : GoString := lit "#$#"

/-- The label that the loop body of `readSortedLabels` makes of one segment holding the
delimiter: `metricLabel{key: v[:idx], value: v[idx+3:]}`. -/
def parseSegment (v : GoString) : metricLabel :=
  { key := sliceTo v (strings.Index v (lit "#$#")),
    value := sliceFrom v (strings.Index v (lit "#$#") + 3) }

/-- A label written as one segment, `key#$#value`. -/
def metricLabel.encode (l : metricLabel) : GoString := l.key ++ labelDelim ++ l.value

/-- A list of labels packed into a `__labels__` string: the segments joined by `'|'`. -/
def encodeLabels (ls : List metricLabel) : GoString :=
  [(124 : UInt8)].intercalate (ls.map metricLabel.encode)

end protocol

/-! ## The Go standard library: `strconv` -/

/-- Conversion to `int64`: the value modulo `2^64`, taken in `[-2^63, 2^63)`. -/
def wrapInt64 (x : Int) : Int := (x + 9223372036854775808) % 18446744073709551616 - 9223372036854775808

/-- Arithmetic in `uint64`: the value modulo `2^64`. -/
def wrapUint64 (x : Nat) : Nat := x % 18446744073709551616

namespace strconv

/-- The two sentinel errors `ErrSyntax` and `ErrRange`. -/
inductive Err where
  | ErrSyntax
  | ErrRange
  deriving DecidableEq, Repr

/-- The struct `NumError`: the failing function, the input, and the reason. -/
structure NumError where
  Func : GoString
  Num : GoString
  Err : Err
  deriving DecidableEq, Repr

def syntaxError (fn str : GoString) : NumError := { Func := fn, Num := str, Err := Err.ErrSyntax }

def rangeError (fn str : GoString) : NumError := { Func := fn, Num := str, Err := Err.ErrRange }

/-- The constant `maxUint64 = 1<<64 - 1`. -/
def maxUint64 : Nat := 18446744073709551615

/-- The loop of `ParseUint(s, 10, 64)` over the bytes of `s`, with `n` the value read so
far and `s0` the whole input.  In base 10 only `'0'..'9'` pass: a letter is a digit `≥ 10`
and fails `d >= byte(base)`, an underscore is only skipped in base 0.  The cutoff is
`maxUint64/10 + 1` and `maxVal` is `maxUint64`. -/
def ParseUint.loop (s0 : GoString) : GoString → Nat → Nat × Nilable NumError
  | [], n => (n, none)
  | c :: rest, n =>
      if 48 ≤ c.toNat ∧ c.toNat ≤ 57 then
        let d := c.toNat - 48
        if n ≥ maxUint64 / 10 + 1 then (maxUint64, some (rangeError (lit "ParseUint") s0))
        else
          let n := wrapUint64 (n * 10)
          let n1 := wrapUint64 (n + d)
          if n1 < n ∨ n1 > maxUint64 then (maxUint64, some (rangeError (lit "ParseUint") s0))
          else ParseUint.loop s0 rest n1
      else (0, some (syntaxError (lit "ParseUint") s0))

/-- Go's `strconv.ParseUint(s, 10, 64)`. -/
def ParseUint (s : GoString) : Nat × Nilable NumError :=
  if s = [] then (0, some (syntaxError (lit "ParseUint") s))
  else ParseUint.loop s s 0

/-- Go's `strconv.ParseInt(s, 10, 64)`: a leading `+` or `-` is picked off, the rest is
read by `ParseUint`, and the range of `int64` is checked against `cutoff = 1<<63`. -/
def ParseInt (s : GoString) : Int × Nilable NumError :=
  match s with
  | [] => (0, some (syntaxError (lit "ParseInt") s))
  | c :: rest =>
      let neg : Bool := c = 45
      let digits := if c = 43 then rest else if c = 45 then rest else s
      match ParseUint digits with
      | (un, some err) =>
          if err.Err ≠ Err.ErrRange then
            (0, some { err with Func := lit "ParseInt", Num := s })
          else if neg = false ∧ un ≥ 9223372036854775808 then
            (9223372036854775807, some (rangeError (lit "ParseInt") s))
          else if neg = true ∧ un > 9223372036854775808 then
            (-9223372036854775808, some (rangeError (lit "ParseInt") s))
          else (if neg then wrapInt64 (-(wrapInt64 un)) else wrapInt64 un, none)
      | (un, none) =>
          if neg = false ∧ un ≥ 9223372036854775808 then
            (9223372036854775807, some (rangeError (lit "ParseInt") s))
          else if neg = true ∧ un > 9223372036854775808 then
            (-9223372036854775808, some (rangeError (lit "ParseInt") s))
          else (if neg then wrapInt64 (-(wrapInt64 un)) else wrapInt64 un, none)

/-- Go's `strconv.ParseBool`. -/
def ParseBool (str : GoString) : Bool × Nilable NumError :=
  if str = lit "1" ∨ str = lit "t" ∨ str = lit "T" ∨ str = lit "true" ∨ str = lit "TRUE" ∨
      str = lit "True" then (true, none)
  else if str = lit "0" ∨ str = lit "f" ∨ str = lit "F" ∨ str = lit "false" ∨
      str = lit "FALSE" ∨ str = lit "False" then (false, none)
  else (false, some (syntaxError (lit "ParseBool") str))

end strconv

/-! ## The Go standard library: `time` -/

namespace time

/-- The constant `unixToInternal`: seconds from January 1, year 1 to the Unix epoch. -/
def unixToInternal : Int := (1969 * 365 + 1969 / 4 - 1969 / 100 + 1969 / 400) * 86400

/-- The zero value `time.Time{}`. -/
def zero : Time := { sec := 0, nsec := 0 }

/-- Go's `unixTime(sec, nsec)`: `sec` holds the seconds since January 1, year 1. -/
def unixTime (sec nsec : Int) : Time := { sec := wrapInt64 (sec + unixToInternal), nsec := nsec }

/-- Go's `time.Unix(sec, nsec)`: a `nsec` outside `[0, 1e9)` is carried into `sec`. -/
def Unix (sec nsec : Int) : Time :=
  if nsec < 0 ∨ nsec ≥ 1000000000 then
    let n := nsec.tdiv 1000000000
    let sec := wrapInt64 (sec + n)
    let nsec := wrapInt64 (nsec - wrapInt64 (n * 1000000000))
    if nsec < 0 then unixTime (wrapInt64 (sec - 1)) (wrapInt64 (nsec + 1000000000))
    else unixTime sec nsec
  else unixTime sec nsec

/-- Go's `Time.UTC()`: the same instant with the location set to UTC; the location is not
part of `Time` here. -/
def Time.UTC (t : Time) : Time := t

/-- Go's `Time.Unix()`: the seconds since the Unix epoch. -/
def Time.unixSec (t : Time) : Int := t.sec - unixToInternal

end time

/-! ## `pkg/protocol/converter`: typed value and timestamp -/

namespace protocol

/-- What the `interface{}` returned by `readValue` holds; `F` stands for `float64`. -/
inductive Value (F : Type) where
  | bool (b : Bool)
  | string (s : GoString)
  | int64 (n : Int)
  | float64 (f : F)
  deriving DecidableEq, Repr

def valueTypeFloat : GoString := lit "float"
def valueTypeInt : GoString := lit "int"
def valueTypeBool : GoString := lit "bool"
def valueTypeString : GoString := lit "string"

/-- The value `&metricReader{}` that `readerPool.New` makes. -/
def readerPool.New : metricReader :=
  { name := [], labels := [], value := [], valueType := [], timestamp := [] }

namespace metricReader

/-- The method `readValue`.  `ParseFloat` stands for `strconv.ParseFloat(·, 64)`, whose
floating-point arithmetic is a parameter. -/
def readValue {F : Type} (ParseFloat : GoString → F × Nilable strconv.NumError)
    (r : metricReader) : Value F × Nilable strconv.NumError :=
  if r.valueType = valueTypeBool then
    ((Value.bool (strconv.ParseBool r.value).1), (strconv.ParseBool r.value).2)
  else if r.valueType = valueTypeString then (Value.string r.value, none)
  else if r.valueType = valueTypeInt then
    ((Value.int64 (strconv.ParseInt r.value).1), (strconv.ParseInt r.value).2)
  else ((Value.float64 (ParseFloat r.value).1), (ParseFloat r.value).2)

/-- The method `readTimestamp`. -/
def readTimestamp (r : metricReader) : time.Time × Nilable strconv.NumError :=
  if r.timestamp.length = 0 then (time.zero, none)
  else
    match strconv.ParseInt r.timestamp with
    | (_, some err) => (time.zero, some err)
    | (t, none) => ((time.Unix (t.tdiv 1000000000) (t.tmod 1000000000)).UTC, none)

end metricReader

/-- A reader holding the given `__value__` and `__type__`. -/
def readerWithValue (value valueType : GoString) : metricReader :=
  { name := [], labels := [], value := value, valueType := valueType, timestamp := [] }

/-- A reader holding the given `__time_nano__`. -/
def readerWithTimestamp (timestamp : GoString) : metricReader :=
  { name := [], labels := [], value := [], valueType := [], timestamp := timestamp }

end protocol

/-! ## Notions used to state the numeral properties -/

namespace strconv

/-- A decimal digit, `'0'..'9'`. -/
def isDigit (c : UInt8) : Bool := 48 ≤ c.toNat ∧ c.toNat ≤ 57

/-- The number a string of decimal digits denotes, most significant digit first. -/
def decimalValue (s : GoString) : Nat := s.foldl (fun acc c => acc * 10 + (c.toNat - 48)) 0

/-- The integer a base-10 integer numeral denotes: an optional sign `+` or `-` followed
by one or more decimal digits; `none` for a string that is not such a numeral. -/
def numeralValue (s : GoString) : Option Int :=
  match s with
  | [] => none
  | c :: rest =>
      let digits := if c = 43 ∨ c = 45 then rest else s
      if digits ≠ [] ∧ digits.all isDigit = true then
        some (if c = 45 then -(decimalValue digits : Int) else (decimalValue digits : Int))
      else none

/-- The decimal rendering of a natural number: `"0"` for zero, otherwise its digits
without leading zeros. -/
def formatNat (n : Nat) : GoString :=
  if n = 0 then [48] else (Nat.digits 10 n).reverse.map (fun d => UInt8.ofNat (d + 48))

/-- The decimal rendering of an integer, as `strconv.FormatInt(n, 10)` writes it: a `-`
before the digits of a negative number. -/
def FormatInt (n : Int) : GoString :=
  if n < 0 then 45 :: formatNat n.natAbs else formatNat n.natAbs

end strconv

/-! ## `helper/decoder`: registration of the built-in decoders as extensions -/

/-- How a Go call ends: it returns a value, or it panics with a message. -/
inductive Outcome (α : Type) where
  | returned (a : α)
  | panicked (msg : GoString)
  deriving DecidableEq, Repr

namespace decoder

/-- The closure `creator` of `RegisterDecodersAsExtension`: it calls `GetDecoder` and
panics when that fails.  `reg` is the state of the extension registry when `creator`
runs. -/
def RegisterDecodersAsExtension.creator (u : Unicode) (c : common) (now : time.Time)
    (reg : extensions.Registry) (protocol : GoString) : Outcome (Nilable Decoder) :=
  match GetDecoder u c now reg protocol with
  | (_, some _) => Outcome.panicked (lit "failed create decoder for protocol: " ++ protocol)
  | (d, none) => Outcome.returned d

/-- The names under which `RegisterDecodersAsExtension` calls
`extensions.AddDecoderCreator`, in source order; the factory registered under a name
`p` is `func() extensions.Decoder { return creator(p) }`. -/
def RegisterDecodersAsExtension.protocols (c : common) : List GoString :=
  [c.ProtocolSLS, c.ProtocolPrometheus, c.ProtocolInfluxdb, c.ProtocolInflux,
   c.ProtocolStatsd, c.ProtocolOTLPLogV1, c.ProtocolOTLPMetricV1, c.ProtocolOTLPTraceV1,
   c.ProtocolRaw, c.ProtocolPyroscope]

end decoder

/-! ## Notions used to state the properties of `set` -/

namespace protocol

/-- The value of the last field with the given key in a list of fields, `dflt` when there
is none. -/
def lastValueOr (key : GoString) (contents : List Log_Content) (dflt : GoString) : GoString :=
  match (contents.filter (fun v => v.Key = key)).getLast? with
  | some v => v.Value
  | none => dflt

/-- The value of the last field of a record with the given key, the empty string when
there is none. -/
def lastValue (key : GoString) (contents : List Log_Content) : GoString :=
  lastValueOr key contents []

end protocol

/-! ## Sample values used to evaluate the definitions -/

/-- A stand-in for the Unicode slow paths; the ASCII strings evaluated below never reach
them. -/
def sampleUnicode : Unicode :=
  { mapToLower := id, trimFuncIsSpace := id, trimRightFuncIsSpace := id }

/-- Sample spellings of the protocol constants. -/
def sampleCommon : common :=
  { ProtocolSLS := lit "sls"
    ProtocolPrometheus := lit "prometheus"
    ProtocolInflux := lit "influx"
    ProtocolInfluxdb := lit "influxdb"
    ProtocolStatsd := lit "statsd"
    ProtocolOTLPLogV1 := lit "otlp_logv1"
    ProtocolOTLPMetricV1 := lit "otlp_metricv1"
    ProtocolOTLPTraceV1 := lit "otlp_tracev1"
    ProtocolRaw := lit "raw"
    ProtocolPyroscope := lit "pyroscope" }

/-- A sample reading of the clock. -/
def sampleNow : time.Time := { sec := 1700000000, nsec := 0 }

/-- An empty registry that compares names byte for byte. -/
def sampleEmptyRegistry : extensions.Registry := { creators := [], key := id }

/-- A registry holding one extension, registered under the name `myext`, that compares
names byte for byte. -/
def sampleRegistry : extensions.Registry :=
  extensions.AddDecoderCreator sampleEmptyRegistry (lit "myext") (fun _ => Decoder.external 7)

/-- The same registration in a registry that compares names by their normal form. -/
def sampleFoldingRegistry : extensions.Registry :=
  extensions.AddDecoderCreator
    { creators := [],
      key := fun s => strings.TrimSpace sampleUnicode (strings.ToLower sampleUnicode s) }
    (lit "myext") (fun _ => Decoder.external 7)

/-! ## Decoder selection -/

section Selection

open decoder strings

/-- When the normalised name is not built-in, `GetDecoderWithOptions` is the extension
lookup under the name as given. -/
theorem GetDecoderWithOptions_default (u : Unicode) (c : common) (now : time.Time)
    (reg : extensions.Registry) (f : GoString) (option : decoder.Option)
    (h : TrimSpace u (ToLower u f) ∉ c.builtin) :
    GetDecoderWithOptions u c now reg f option = extensions.CreateDecoder reg f option := by
  simp only [common.builtin, List.mem_cons, List.mem_singleton, not_or, List.not_mem_nil,
    not_false_eq_true, and_true] at h
  simp [GetDecoderWithOptions, h]

/-- Two names with the same built-in normal form select the same decoder. -/
theorem GetDecoderWithOptions_congr (u : Unicode) (c : common) (now : time.Time)
    (reg : extensions.Registry) (f g : GoString) (option : decoder.Option)
    (hfg : TrimSpace u (ToLower u g) = TrimSpace u (ToLower u f))
    (h : TrimSpace u (ToLower u f) ∈ c.builtin) :
    GetDecoderWithOptions u c now reg f option = GetDecoderWithOptions u c now reg g option := by
  simp only [common.builtin, List.mem_cons, List.mem_singleton, List.not_mem_nil,
    or_false] at h
  unfold GetDecoderWithOptions
  simp only [hfg]
  generalize TrimSpace u (ToLower u f) = t at h ⊢
  by_cases h1 : t = c.ProtocolSLS
  · simp only [if_pos h1]
  by_cases h2 : t = c.ProtocolPrometheus
  · simp only [if_neg h1, if_pos h2]
  by_cases h3 : t = c.ProtocolInflux ∨ t = c.ProtocolInfluxdb
  · simp only [if_neg h1, if_neg h2, if_pos h3]
  by_cases h4 : t = c.ProtocolStatsd
  · simp only [if_neg h1, if_neg h2, if_neg h3, if_pos h4]
  by_cases h5 : t = c.ProtocolOTLPLogV1
  · simp only [if_neg h1, if_neg h2, if_neg h3, if_neg h4, if_pos h5]
  by_cases h6 : t = c.ProtocolOTLPMetricV1
  · simp only [if_neg h1, if_neg h2, if_neg h3, if_neg h4, if_neg h5, if_pos h6]
  by_cases h7 : t = c.ProtocolOTLPTraceV1
  · simp only [if_neg h1, if_neg h2, if_neg h3, if_neg h4, if_neg h5, if_neg h6, if_pos h7]
  by_cases h8 : t = c.ProtocolRaw
  · simp only [if_neg h1, if_neg h2, if_neg h3, if_neg h4, if_neg h5, if_neg h6, if_neg h7,
      if_pos h8]
  by_cases h9 : t = c.ProtocolPyroscope
  · simp only [if_neg h1, if_neg h2, if_neg h3, if_neg h4, if_neg h5, if_neg h6, if_neg h7,
      if_neg h8, if_pos h9]
  exfalso
  rw [not_or] at h3
  rcases h with h | h | h | h | h | h | h | h | h | h
  · exact h1 h
  · exact h2 h
  · exact h3.1 h
  · exact h3.2 h
  · exact h4 h
  · exact h5 h
  · exact h6 h
  · exact h7 h
  · exact h8 h
  · exact h9 h

/-- C1: for every built-in protocol name `p`, every `Option` and every string `f` whose
lower-cased, trimmed form is `p`, `GetDecoderWithOptions(f, option)` returns the non-nil
decoder built for `p` together with a nil error; the constants are pairwise different, as
the Go compiler demands of the cases of one `switch`. -/
theorem GetDecoderWithOptions_builtin (u : Unicode) (c : common) (now : time.Time)
    (reg : extensions.Registry) (f : GoString) (option : decoder.Option) (hc : c.Distinct) :
    (TrimSpace u (ToLower u f) = c.ProtocolSLS →
      GetDecoderWithOptions u c now reg f option = (some Decoder.sls, none)) ∧
    (TrimSpace u (ToLower u f) = c.ProtocolPrometheus →
      GetDecoderWithOptions u c now reg f option = (some Decoder.prometheus, none)) ∧
    (TrimSpace u (ToLower u f) = c.ProtocolInflux →
      GetDecoderWithOptions u c now reg f option =
        (some (Decoder.influxdb option.FieldsExtend), none)) ∧
    (TrimSpace u (ToLower u f) = c.ProtocolInfluxdb →
      GetDecoderWithOptions u c now reg f option =
        (some (Decoder.influxdb option.FieldsExtend), none)) ∧
    (TrimSpace u (ToLower u f) = c.ProtocolStatsd →
      GetDecoderWithOptions u c now reg f option = (some (Decoder.statsd now), none)) ∧
    (TrimSpace u (ToLower u f) = c.ProtocolOTLPLogV1 →
      GetDecoderWithOptions u c now reg f option =
        (some (Decoder.opentelemetry c.ProtocolOTLPLogV1), none)) ∧
    (TrimSpace u (ToLower u f) = c.ProtocolOTLPMetricV1 →
      GetDecoderWithOptions u c now reg f option =
        (some (Decoder.opentelemetry c.ProtocolOTLPMetricV1), none)) ∧
    (TrimSpace u (ToLower u f) = c.ProtocolOTLPTraceV1 →
      GetDecoderWithOptions u c now reg f option =
        (some (Decoder.opentelemetry c.ProtocolOTLPTraceV1), none)) ∧
    (TrimSpace u (ToLower u f) = c.ProtocolRaw →
      GetDecoderWithOptions u c now reg f option =
        (some (Decoder.raw option.DisableUncompress), none)) ∧
    (TrimSpace u (ToLower u f) = c.ProtocolPyroscope →
      GetDecoderWithOptions u c now reg f option = (some Decoder.pyroscope, none)) := by
  simp only [common.Distinct, common.builtin, List.nodup_cons, List.mem_cons, List.mem_singleton,
    not_or, List.not_mem_nil, not_false_eq_true, List.nodup_nil, and_true] at hc
  obtain ⟨⟨h12, h13, h14, h15, h16, h17, h18, h19, h1a⟩,
    ⟨h23, h24, h25, h26, h27, h28, h29, h2a⟩, ⟨h34, h35, h36, h37, h38, h39, h3a⟩,
    ⟨h45, h46, h47, h48, h49, h4a⟩, ⟨h56, h57, h58, h59, h5a⟩, ⟨h67, h68, h69, h6a⟩,
    ⟨h78, h79, h7a⟩, ⟨h89, h8a⟩, h9a⟩ := hc
  refine ⟨?_, ?_, ?_, ?_, ?_, ?_, ?_, ?_, ?_, ?_⟩ <;> intro h <;>
    simp [GetDecoderWithOptions, h, *, Ne.symm, eq_comm]

/-- C1, evaluated: with the sample constants, `"  Influx\t"` and `" RAW "` select the
influxdb and raw decoders carrying the given options. -/
theorem GetDecoderWithOptions_builtin_witness :
    sampleCommon.Distinct ∧
    GetDecoderWithOptions sampleUnicode sampleCommon sampleNow sampleRegistry (lit "  Influx\t")
      ⟨true, false⟩ = (some (Decoder.influxdb true), none) ∧
    GetDecoderWithOptions sampleUnicode sampleCommon sampleNow sampleRegistry (lit " RAW ")
      ⟨false, true⟩ = (some (Decoder.raw true), none) :=
  ⟨by unfold common.Distinct; decide,
   (GetDecoderWithOptions_builtin sampleUnicode sampleCommon sampleNow sampleRegistry
      (lit "  Influx\t") ⟨true, false⟩ (by unfold common.Distinct; decide)).2.2.1 (by decide),
   (GetDecoderWithOptions_builtin sampleUnicode sampleCommon sampleNow sampleRegistry
      (lit " RAW ") ⟨false, true⟩ (by unfold common.Distinct; decide)).2.2.2.2.2.2.2.2.1
      (by decide)⟩

/-- Name matching is case- and whitespace-insensitive for the built-in names: when the
normal form of `f` is a built-in name (each of which is its own normal form),
`GetDecoderWithOptions(f, o)` and `GetDecoderWithOptions(TrimSpace(ToLower(f)), o)` have
the same outcome for every registry state; when it is not built-in, the name handed to
the extension lookup is `f` exactly as given. -/
theorem GetDecoderWithOptions_normalised (u : Unicode) (c : common) (now : time.Time)
    (reg : extensions.Registry) (f : GoString) (o : decoder.Option) (hn : c.Normal u) :
    (TrimSpace u (ToLower u f) ∈ c.builtin →
      GetDecoderWithOptions u c now reg f o =
        GetDecoderWithOptions u c now reg (TrimSpace u (ToLower u f)) o) ∧
    (TrimSpace u (ToLower u f) ∉ c.builtin →
      GetDecoderWithOptions u c now reg f o = extensions.CreateDecoder reg f o) :=
  ⟨fun h => GetDecoderWithOptions_congr u c now reg f _ o (hn _ h) h,
   fun h => GetDecoderWithOptions_default u c now reg f o h⟩

/-- For a name that is not built-in the outcome turns on how the registry compares names:
with the extension `myext` registered, `MyExt` is not found by a registry that compares
byte for byte and is resolved by one that compares normal forms; the normal form `myext`
is resolved by both. -/
theorem GetDecoderWithOptions_registry_key :
    TrimSpace sampleUnicode (ToLower sampleUnicode (lit "MyExt")) = lit "myext" ∧
    GetDecoderWithOptions sampleUnicode sampleCommon sampleNow sampleRegistry (lit "MyExt")
      ⟨false, false⟩ = (none, some Error.NotFound) ∧
    GetDecoderWithOptions sampleUnicode sampleCommon sampleNow sampleRegistry (lit "myext")
      ⟨false, false⟩ = (some (Decoder.external 7), none) ∧
    GetDecoderWithOptions sampleUnicode sampleCommon sampleNow sampleFoldingRegistry
      (lit "MyExt") ⟨false, false⟩ = (some (Decoder.external 7), none) ∧
    GetDecoderWithOptions sampleUnicode sampleCommon sampleNow sampleFoldingRegistry
      (lit "myext") ⟨false, false⟩ = (some (Decoder.external 7), none) := by
  decide

/-- No call of `GetDecoderWithOptions` returns `errDecoderNotFound`: its error is nil or
the one of the extension lookup. -/
theorem GetDecoderWithOptions_error (u : Unicode) (c : common) (now : time.Time)
    (reg : extensions.Registry) (f : GoString) (option : decoder.Option) :
    (GetDecoderWithOptions u c now reg f option).2 = none ∨
    (GetDecoderWithOptions u c now reg f option).2 = some Error.NotFound := by
  have hl : (extensions.CreateDecoder reg f option).2 = none ∨
      (extensions.CreateDecoder reg f option).2 = some Error.NotFound := by
    unfold extensions.CreateDecoder
    cases reg.creators.find? (fun e => decide (reg.key e.1 = reg.key f)) with
    | none => exact Or.inr rfl
    | some e => exact Or.inl rfl
  unfold GetDecoderWithOptions
  simp only []
  split_ifs
  all_goals first | exact Or.inl rfl | exact hl

/-- C3 as stated fails: for `nosuch`, which is neither built-in nor registered, the error
returned is the one of the extension lookup, not the variable `errDecoderNotFound`. -/
theorem GetDecoderWithOptions_notFound_counterexample :
    TrimSpace sampleUnicode (ToLower sampleUnicode (lit "nosuch")) ∉ sampleCommon.builtin ∧
    sampleEmptyRegistry.creators = [] ∧
    GetDecoderWithOptions sampleUnicode sampleCommon sampleNow sampleEmptyRegistry
      (lit "nosuch") ⟨false, false⟩ = (none, some Error.NotFound) ∧
    GetDecoderWithOptions sampleUnicode sampleCommon sampleNow sampleEmptyRegistry
      (lit "nosuch") ⟨false, false⟩ ≠ (none, some errDecoderNotFound) := by
  decide

/-- C3, amended: for every string whose normal form is not a built-in name and for which
no extension factory is registered (no registration has the key the registry makes of the
string), `GetDecoderWithOptions` returns what `extensions.CreateDecoder` returns for the
string as given: a nil decoder and the not-found error of the extension lookup, which is
not `errDecoderNotFound`; that variable is returned for no input at all.  The call returns:
the function has no panic site and the lookup misses without calling a factory. -/
theorem GetDecoderWithOptions_notFound (u : Unicode) (c : common) (now : time.Time)
    (reg : extensions.Registry) (f : GoString) (option : decoder.Option)
    (hb : TrimSpace u (ToLower u f) ∉ c.builtin)
    (hr : ∀ e ∈ reg.creators, reg.key e.1 ≠ reg.key f) :
    GetDecoderWithOptions u c now reg f option = extensions.CreateDecoder reg f option ∧
    GetDecoderWithOptions u c now reg f option = (none, some Error.NotFound) ∧
    GetDecoderWithOptions u c now reg f option ≠ (none, some errDecoderNotFound) ∧
    (∀ (g : GoString) (o : decoder.Option),
      (GetDecoderWithOptions u c now reg g o).2 ≠ some errDecoderNotFound) := by
  have hdef := GetDecoderWithOptions_default u c now reg f option hb
  have hmiss : reg.creators.find? (fun e => decide (reg.key e.1 = reg.key f)) = none := by
    rw [List.find?_eq_none]
    intro e he
    simpa using hr e he
  have hres : GetDecoderWithOptions u c now reg f option = (none, some Error.NotFound) := by
    rw [hdef]
    simp only [extensions.CreateDecoder, hmiss]
  refine ⟨hdef, hres, ?_, ?_⟩
  · rw [hres]
    decide
  · intro g o
    rcases GetDecoderWithOptions_error u c now reg g o with h | h <;> rw [h] <;> decide

/-- C3 amended, evaluated: `nosuch` is neither built-in nor registered beside `myext`. -/
theorem GetDecoderWithOptions_notFound_witness :
    TrimSpace sampleUnicode (ToLower sampleUnicode (lit "nosuch")) ∉ sampleCommon.builtin ∧
    (∀ e ∈ sampleRegistry.creators, sampleRegistry.key e.1 ≠ sampleRegistry.key (lit "nosuch")) ∧
    GetDecoderWithOptions sampleUnicode sampleCommon sampleNow sampleRegistry (lit "nosuch")
      ⟨false, false⟩ = (none, some Error.NotFound) :=
  have hr : ∀ e ∈ sampleRegistry.creators,
      sampleRegistry.key e.1 ≠ sampleRegistry.key (lit "nosuch") := by
    intro e he
    have hc : sampleRegistry.creators = [(lit "myext", fun _ => Decoder.external 7)] := rfl
    rw [hc, List.mem_singleton] at he
    rw [he]
    decide
  ⟨by decide, hr,
   (GetDecoderWithOptions_notFound sampleUnicode sampleCommon sampleNow sampleRegistry
     (lit "nosuch") ⟨false, false⟩ (by decide) hr).2.1⟩

end Selection

/-! ## The metric reader: `set` and `readNames` -/

section Reader

open protocol protocol.metricReader strings

/-- A field whose key is not `__name__` leaves the name as it is. -/
theorem set_step_name (r : metricReader) (v : Log_Content) (h : v.Key ≠ metricNameKey) :
    (set.step r v).name = r.name := by
  unfold set.step
  rw [if_neg h]
  split_ifs <;> rfl

/-- A field whose key is not `__value__` leaves the value as it is. -/
theorem set_step_value (r : metricReader) (v : Log_Content) (h : v.Key ≠ metricValueKey) :
    (set.step r v).value = r.value := by
  unfold set.step
  split_ifs <;> rfl

/-- Scanning fields none of which has key `__name__` leaves the name as it is. -/
theorem foldl_step_name (l : List Log_Content) (r : metricReader)
    (h : ∀ v ∈ l, v.Key ≠ metricNameKey) : (l.foldl set.step r).name = r.name := by
  induction l generalizing r with
  | nil => rfl
  | cons v l ih =>
    rw [List.foldl_cons, ih _ (fun w hw => h w (List.mem_cons_of_mem _ hw)),
      set_step_name r v (h v (List.mem_cons_self _ _))]

/-- Scanning fields none of which has key `__value__` leaves the value as it is. -/
theorem foldl_step_value (l : List Log_Content) (r : metricReader)
    (h : ∀ v ∈ l, v.Key ≠ metricValueKey) : (l.foldl set.step r).value = r.value := by
  induction l generalizing r with
  | nil => rfl
  | cons v l ih =>
    rw [List.foldl_cons, ih _ (fun w hw => h w (List.mem_cons_of_mem _ hw)),
      set_step_value r v (h v (List.mem_cons_self _ _))]

/-- C4: for every record that has no field with key `__name__`, or no field with key
`__value__`, `set` returns a non-nil error, whatever the other fields and whatever the
reader held before. -/
theorem set_missing_required (r : metricReader) (log : Log)
    (h : (∀ v ∈ log.Contents, v.Key ≠ metricNameKey) ∨
         (∀ v ∈ log.Contents, v.Key ≠ metricValueKey)) :
    (r.set log).2 = some Error.MissingRequiredField ∧ (r.set log).2 ≠ none := by
  have key : (log.Contents.foldl set.step r.reset).name.length = 0 ∨
      (log.Contents.foldl set.step r.reset).value.length = 0 := by
    rcases h with h | h
    · left; rw [foldl_step_name _ _ h]; rfl
    · right; rw [foldl_step_value _ _ h]; rfl
  simp only [metricReader.set, if_pos key]
  simp

/-- C4, evaluated: a record with a name and labels but no `__value__` is rejected by a
reader that held a value before. -/
theorem set_missing_required_witness :
    ((∀ v ∈ (Log.mk [⟨lit "__name__", lit "cpu"⟩, ⟨lit "__labels__", lit "a#$#1"⟩]).Contents,
        v.Key ≠ metricNameKey) ∨
     (∀ v ∈ (Log.mk [⟨lit "__name__", lit "cpu"⟩, ⟨lit "__labels__", lit "a#$#1"⟩]).Contents,
        v.Key ≠ metricValueKey)) ∧
    (metricReader.set ⟨lit "old", [], lit "1", [], []⟩
      ⟨[⟨lit "__name__", lit "cpu"⟩, ⟨lit "__labels__", lit "a#$#1"⟩]⟩).2 =
      some Error.MissingRequiredField ∧
    (metricReader.set ⟨lit "old", [], lit "1", [], []⟩
      ⟨[⟨lit "__name__", lit "cpu"⟩, ⟨lit "__labels__", lit "a#$#1"⟩]⟩).2 ≠ none :=
  ⟨by decide,
   set_missing_required ⟨lit "old", [], lit "1", [], []⟩
     ⟨[⟨lit "__name__", lit "cpu"⟩, ⟨lit "__labels__", lit "a#$#1"⟩]⟩ (by decide)⟩

/-- Without the byte in the string, `LastIndexByte` is `-1`. -/
theorem LastIndexByte_not_mem (s : GoString) (c : UInt8) (h : c ∉ s) :
    LastIndexByte s c = -1 := by
  induction s with
  | nil => rfl
  | cons b s ih =>
    rw [List.mem_cons, not_or] at h
    have hb : ¬ b = c := fun e => h.1 e.symm
    simp [LastIndexByte, ih h.2, hb]

/-- The last occurrence: after it the byte does not occur again. -/
theorem LastIndexByte_append (pre post : GoString) (c : UInt8) (h : c ∉ post) :
    LastIndexByte (pre ++ c :: post) c = pre.length := by
  induction pre with
  | nil => simp [LastIndexByte, LastIndexByte_not_mem post c h]
  | cons b pre ih =>
    have hpos : (0 : Int) ≤ (pre.length : Int) := Int.natCast_nonneg _
    rw [List.cons_append, LastIndexByte, ih]
    simp [hpos]

/-- C5 as stated fails: in `":usage"` the last colon is the first byte, and `readNames`
returns the whole name with the field `"value"`, not `("", "usage")`. -/
theorem readNames_leading_colon_counterexample :
    (58 : UInt8) ∈ lit ":usage" ∧
    lit ":usage" = lit "" ++ 58 :: lit "usage" ∧ (58 : UInt8) ∉ lit "usage" ∧
    (readerWithName (lit ":usage")).readNames = (lit ":usage", lit "value") ∧
    (readerWithName (lit ":usage")).readNames ≠ (lit "", lit "usage") := by
  decide

/-- C5, amended: for every metric name with a colon whose last colon is not the first
byte, `readNames` splits on the last colon: it returns the text before it and the text
after it. -/
theorem readNames_last_colon (r : metricReader) (pre post : GoString)
    (hname : r.name = pre ++ 58 :: post) (hpost : (58 : UInt8) ∉ post) (hpre : pre ≠ []) :
    r.readNames = (pre, post) := by
  have hlen : 0 < pre.length := List.length_pos.mpr hpre
  unfold readNames
  rw [hname, LastIndexByte_append pre post 58 hpost]
  have h1 : ¬ ((pre.length : Int) ≤ 0) := by omega
  rw [if_neg h1]
  simp [sliceTo, sliceFrom]

/-- C5 amended, evaluated: `"a:b:c"` splits into `"a:b"` and `"c"`. -/
theorem readNames_last_colon_witness :
    (readerWithName (lit "a:b:c")).name = lit "a:b" ++ 58 :: lit "c" ∧
    (58 : UInt8) ∉ lit "c" ∧ lit "a:b" ≠ [] ∧
    (readerWithName (lit "a:b:c")).readNames = (lit "a:b", lit "c") :=
  ⟨by decide, by decide, by decide,
   readNames_last_colon (readerWithName (lit "a:b:c")) (lit "a:b") (lit "c") (by decide)
     (by decide) (by decide)⟩

/-- C6: for every metric name without a colon, `readNames` returns the whole name and the
field `"value"`; `"cpu"` gives `("cpu", "value")` and `"cpu:usage"` gives
`("cpu", "usage")`. -/
theorem readNames_no_colon (r : metricReader) (h : (58 : UInt8) ∉ r.name) :
    r.readNames = (r.name, lit "value") ∧
    (readerWithName (lit "cpu")).readNames = (lit "cpu", lit "value") ∧
    (readerWithName (lit "cpu:usage")).readNames = (lit "cpu", lit "usage") := by
  refine ⟨?_, by decide, by decide⟩
  unfold readNames
  rw [LastIndexByte_not_mem r.name 58 h]
  simp

/-- C6, evaluated: `"mem_used"` has no colon. -/
theorem readNames_no_colon_witness :
    (58 : UInt8) ∉ (readerWithName (lit "mem_used")).name ∧
    (readerWithName (lit "mem_used")).readNames = (lit "mem_used", lit "value") :=
  ⟨by decide, (readNames_no_colon (readerWithName (lit "mem_used")) (by decide)).1⟩

end Reader

/-! ## The string library: splitting, searching, ordering -/

section StringLemmas

open strings

theorem IndexByte_ge (s : GoString) (c : UInt8) : -1 ≤ IndexByte s c := by
  induction s with
  | nil => simp [IndexByte]
  | cons b s ih =>
    simp only [IndexByte]
    split_ifs <;> omega

/-- The loop of `genSplit` on a string starting with the separator. -/
theorem genSplit_loop_cons_sep (sep : UInt8) (k : Nat) (s : GoString) :
    genSplit.loop sep (k + 1) (sep :: s) = [] :: genSplit.loop sep k s := by
  simp [genSplit.loop, IndexByte, sliceTo, sliceFrom]

/-- The loop of `genSplit` on a string starting with another byte: the byte joins the
first piece. -/
theorem genSplit_loop_cons_ne (sep b : UInt8) (hb : b ≠ sep) (k : Nat) (s : GoString) :
    genSplit.loop sep k (b :: s) = (genSplit.loop sep k s).modifyHead (b :: ·) := by
  cases k with
  | zero => simp [genSplit.loop]
  | succ k =>
    have hge := IndexByte_ge s sep
    simp only [genSplit.loop, IndexByte, if_neg hb]
    by_cases hr : IndexByte s sep < 0
    · simp [hr]
    · have h1 : ¬ (IndexByte s sep + 1 < 0) := by omega
      have h2 : (IndexByte s sep + 1).toNat = (IndexByte s sep).toNat + 1 := by omega
      have h3 : (IndexByte s sep + 1 + 1).toNat = (IndexByte s sep + 1).toNat + 1 := by omega
      simp [hr, h1, sliceTo, sliceFrom, h2, h3]

/-- With enough cuts allowed, the loop of `genSplit` cuts at every separator. -/
theorem genSplit_loop_eq_splitOn (sep : UInt8) (s : GoString) :
    ∀ k, s.count sep ≤ k → genSplit.loop sep k s = s.splitOn sep := by
  induction s with
  | nil => intro k _; cases k <;> simp [genSplit.loop, IndexByte, List.splitOn]
  | cons b s ih =>
    intro k hk
    by_cases hb : b = sep
    · subst hb
      rw [List.count_cons_self] at hk
      obtain ⟨k, rfl⟩ : ∃ j, k = j + 1 := ⟨k - 1, by omega⟩
      rw [genSplit_loop_cons_sep, ih k (by omega)]
      simp [List.splitOn, List.splitOnP_cons]
    · rw [List.count_cons_of_ne (Ne.symm hb)] at hk
      rw [genSplit_loop_cons_ne sep b hb, ih k hk]
      simp [List.splitOn, List.splitOnP_cons, hb]

/-- Asked for `Count(s, sep) + 1` pieces, `SplitN` returns all segments of a non-empty
string. -/
theorem SplitN_count (s : GoString) (sep : UInt8) :
    SplitN s sep ((Count s sep : Int) + 1) = s.splitOn sep := by
  have hle : s.count sep ≤ s.length := List.count_le_length _ _
  unfold SplitN Count
  have h0 : ¬ ((s.count sep : Int) + 1 = 0) := by omega
  have h1 : ¬ ((s.count sep : Int) + 1 < 0) := by omega
  have h2 : ¬ ((s.count sep : Int) + 1 > (s.length : Int) + 1) := by omega
  simp only [if_neg h0, if_neg h1, if_neg h2]
  have h3 : ((s.count sep : Int) + 1 - 1).toNat = s.count sep := by omega
  rw [h3]
  exact genSplit_loop_eq_splitOn sep s _ (Nat.le_refl _)

theorem Index_ge (s sub : GoString) : -1 ≤ Index s sub := by
  induction s with
  | nil => simp only [Index]; split_ifs <;> omega
  | cons b s ih => simp only [Index]; split_ifs <;> omega

/-- A non-negative `Index` is the position of an occurrence. -/
theorem Index_occurrence (s sub : GoString) (h : 0 ≤ Index s sub) :
    s = s.take (Index s sub).toNat ++ sub ++ s.drop ((Index s sub).toNat + sub.length) := by
  induction s with
  | nil =>
    unfold Index at h ⊢
    by_cases he : sub.isEmpty = true
    · rw [List.isEmpty_iff] at he; simp [he]
    · simp [he] at h
  | cons b s ih =>
    unfold Index at h ⊢
    by_cases hp : sub.isPrefixOf (b :: s) = true
    · simp only [if_pos hp]
      obtain ⟨t, ht⟩ := List.isPrefixOf_iff_prefix.mp hp
      simp only [Int.toNat_zero, List.take_zero, List.nil_append, Nat.zero_add]
      rw [← ht]; simp
    · simp only [if_neg hp] at h ⊢
      have hge := Index_ge s sub
      by_cases hr : Index s sub < 0
      · simp [hr] at h
      · simp only [if_neg hr]
        have h2 : (Index s sub + 1).toNat = (Index s sub).toNat + 1 := by omega
        rw [h2]
        simp only [List.take_succ_cons, List.cons_append, Nat.add_right_comm _ 1,
          List.drop_succ_cons]
        exact congrArg (List.cons b) (ih (by omega))

/-- `Index` is negative exactly when the string does not contain the substring. -/
theorem Index_neg_iff (s sub : GoString) : Index s sub < 0 ↔ ¬ sub <:+: s := by
  induction s with
  | nil =>
    unfold Index
    by_cases he : sub.isEmpty = true
    · rw [List.isEmpty_iff] at he; simp [he]
    · have : sub ≠ [] := fun e => he (by simp [e])
      simp [he, this]
  | cons b s ih =>
    unfold Index
    by_cases hp : sub.isPrefixOf (b :: s) = true
    · simp only [if_pos hp]
      have := (List.isPrefixOf_iff_prefix.mp hp).isInfix
      simp [this]
    · simp only [if_neg hp]
      have hge := Index_ge s sub
      have hnp : ¬ sub <+: b :: s := fun h => hp (List.isPrefixOf_iff_prefix.mpr h)
      rw [List.infix_cons_iff]
      by_cases hr : Index s sub < 0
      · have := ih.mp hr
        simp [hr, this, hnp]
      · have hin : sub <:+: s := by
          by_contra hc
          exact hr (ih.mpr hc)
        simp only [if_neg hr]
        constructor
        · intro h; omega
        · intro h; exact absurd (Or.inr hin) h

end StringLemmas

/-! ## String order and sorting -/

section Order

theorem stringLess_asymm : ∀ a b : GoString, stringLess a b = true → stringLess b a = false
  | _, [], h => by simp [stringLess] at h
  | [], _ :: _, _ => by simp [stringLess]
  | a :: as, b :: bs, h => by
    simp only [stringLess] at h ⊢
    by_cases h1 : a.toNat < b.toNat
    · have h2 : ¬ b.toNat < a.toNat := by omega
      simp [h1, h2]
    · by_cases h2 : b.toNat < a.toNat
      · simp [h1, h2] at h
      · simp only [if_neg h1, if_neg h2] at h ⊢
        exact stringLess_asymm as bs h

theorem stringLess_connex : ∀ a b : GoString,
    stringLess a b = false → stringLess b a = false → a = b
  | [], [], _, _ => rfl
  | [], _ :: _, h, _ => by simp [stringLess] at h
  | _ :: _, [], _, h => by simp [stringLess] at h
  | a :: as, b :: bs, hab, hba => by
    simp only [stringLess] at hab hba
    by_cases h1 : a.toNat < b.toNat
    · simp [h1] at hab
    · by_cases h2 : b.toNat < a.toNat
      · simp [h2] at hba
      · simp only [if_neg h1, if_neg h2] at hab hba
        have hbyte : a = b := UInt8.ext (by omega)
        rw [hbyte, stringLess_connex as bs hab hba]

theorem stringLess_false_trans : ∀ a b c : GoString,
    stringLess b a = false → stringLess c b = false → stringLess c a = false
  | [], _, c, _, _ => by cases c <;> simp [stringLess]
  | _ :: _, [], _, h, _ => by simp [stringLess] at h
  | _ :: _, _ :: _, [], _, h => by simp [stringLess] at h
  | a :: as, b :: bs, c :: cs, hba, hcb => by
    simp only [stringLess] at hba hcb ⊢
    by_cases h1 : b.toNat < a.toNat
    · simp [h1] at hba
    by_cases h2 : c.toNat < b.toNat
    · simp [h2] at hcb
    by_cases h3 : a.toNat < b.toNat
    · have h4 : ¬ c.toNat < a.toNat := by omega
      have h5 : a.toNat < c.toNat := by omega
      simp [h4, h5]
    by_cases h4 : b.toNat < c.toNat
    · have h5 : ¬ c.toNat < a.toNat := by omega
      have h6 : a.toNat < c.toNat := by omega
      simp [h5, h6]
    simp only [if_neg h1, if_neg h2, if_neg h3, if_neg h4] at hba hcb
    have h5 : ¬ c.toNat < a.toNat := by omega
    have h6 : ¬ a.toNat < c.toNat := by omega
    simp only [if_neg h5, if_neg h6]
    exact stringLess_false_trans as bs cs hba hcb

instance stringLE.isTotal : IsTotal GoString stringLE where
  total a b := by
    unfold stringLE
    by_cases h : stringLess b a = true
    · exact Or.inr (stringLess_asymm b a h)
    · exact Or.inl (by simpa using h)

instance stringLE.isTrans : IsTrans GoString stringLE where
  trans a b c hab hbc := stringLess_false_trans a b c hab hbc

instance stringLE.isAntisymm : IsAntisymm GoString stringLE where
  antisymm a b hab hba := stringLess_connex a b hba hab

/-- The outcome of `sort.Strings` is in increasing order. -/
theorem Strings_sorted (x : List GoString) : (sort.Strings x).Sorted stringLE :=
  List.sorted_insertionSort stringLE x

/-- The outcome of `sort.Strings` is a rearrangement of the input. -/
theorem Strings_perm (x : List GoString) : (sort.Strings x).Perm x :=
  List.perm_insertionSort stringLE x

/-- Rearrangements of one another sort to the same list. -/
theorem Strings_congr (x y : List GoString) (h : x.Perm y) : sort.Strings x = sort.Strings y :=
  List.eq_of_perm_of_sorted (((Strings_perm x).trans h).trans (Strings_perm y).symm)
    (Strings_sorted x) (Strings_sorted y)

end Order

/-! ## The metric reader: `readSortedLabels` -/

section Labels

open protocol protocol.metricReader strings

theorem labelDelim_eq : labelDelim = [35, 36, 35] := by decide

theorem lit_delim_eq : lit "#$#" = labelDelim := rfl

/-- A string has one segment more than it has `'|'` bytes. -/
theorem labelSegments_length (s : GoString) :
    (labelSegments s).length = Count s 124 + 1 := by
  unfold labelSegments Count List.splitOn
  induction s with
  | nil => simp
  | cons b s ih =>
    rw [List.splitOnP_cons]
    by_cases hb : b = 124
    · subst hb; simp [ih]
    · have hb2 : ¬ (124 : UInt8) = b := fun e => hb e.symm
      simp [hb, ih, List.count_cons, hb2]

/-- Only the empty string has the single empty segment. -/
theorem labelSegments_eq_nil_singleton (s : GoString) (h : labelSegments s = [[]]) : s = [] := by
  have : [(124 : UInt8)].intercalate (s.splitOn 124) = s := List.intercalate_splitOn s 124
  unfold labelSegments at h
  rw [h] at this
  simpa [List.intercalate] using this.symm

theorem labelSegments_nil : labelSegments [] = [[]] := by
  simp [labelSegments, List.splitOn]

/-- The loop of `readSortedLabels` succeeds on segments that all hold the delimiter. -/
theorem loop_some (segs : List GoString) (h : ∀ v ∈ segs, labelDelim <:+: v) :
    readSortedLabels.loop segs = some (segs.map parseSegment) := by
  induction segs with
  | nil => rfl
  | cons v segs ih =>
    have hv : ¬ Index v (lit "#$#") < 0 := by
      rw [Index_neg_iff, lit_delim_eq]
      exact not_not.mpr (h v (List.mem_cons_self _ _))
    simp only [readSortedLabels.loop, if_neg hv,
      ih (fun w hw => h w (List.mem_cons_of_mem _ hw)), Option.map_some', List.map_cons,
      parseSegment]

/-- The loop of `readSortedLabels` fails when a segment lacks the delimiter. -/
theorem loop_none (segs : List GoString) (h : ∃ v ∈ segs, ¬ labelDelim <:+: v) :
    readSortedLabels.loop segs = none := by
  induction segs with
  | nil => simp at h
  | cons v segs ih =>
    by_cases hv : Index v (lit "#$#") < 0
    · simp [readSortedLabels.loop, hv]
    · obtain ⟨w, hw, hbad⟩ := h
      rw [List.mem_cons] at hw
      rcases hw with rfl | hw
      · exact absurd ((Index_neg_iff _ _).mpr hbad) hv
      · simp [readSortedLabels.loop, hv, ih ⟨w, hw, hbad⟩]

/-- Writing the parsed label back gives the segment. -/
theorem encode_parseSegment (v : GoString) (h : labelDelim <:+: v) :
    (parseSegment v).encode = v := by
  have hv : 0 ≤ Index v labelDelim := by
    by_contra hc
    exact ((Index_neg_iff v labelDelim).mp (by omega)) h
  have hocc := Index_occurrence v labelDelim hv
  have h3 : (Index v labelDelim + 3).toNat = (Index v labelDelim).toNat + 3 := by omega
  have hlen : labelDelim.length = 3 := by decide
  rw [hlen] at hocc
  simp only [metricLabel.encode, parseSegment, lit_delim_eq, sliceTo, sliceFrom, h3]
  exact hocc.symm

/-- On a non-empty `__labels__`, `readSortedLabels` runs its loop over the sorted
segments. -/
theorem readSortedLabels_nonempty (r : metricReader) (hne : r.labels ≠ []) :
    r.readSortedLabels =
      match readSortedLabels.loop (sort.Strings (labelSegments r.labels)) with
      | none => ([], some Error.MalformedLabel)
      | some labels => (labels, none) := by
  have hlen : ¬ r.labels.length = 0 := by
    rw [List.length_eq_zero]; exact hne
  have hn : ¬ ((Count r.labels 124 : Int) + 1 = 0) := by omega
  simp only [readSortedLabels, countLabels, if_neg hlen, if_neg hn, SplitN_count, labelSegments]

/-- On an empty `__labels__`, `readSortedLabels` returns no label and no error. -/
theorem readSortedLabels_empty (r : metricReader) (he : r.labels = []) :
    r.readSortedLabels = ([], none) := by
  simp [readSortedLabels, countLabels, he]

/-- Membership in the sorted segments is membership in the segments. -/
theorem mem_Strings (x : List GoString) (v : GoString) : v ∈ sort.Strings x ↔ v ∈ x :=
  (Strings_perm x).mem_iff

/-- The result of `readSortedLabels` when every segment holds the delimiter. -/
theorem readSortedLabels_ok (r : metricReader) (hne : r.labels ≠ [])
    (hd : ∀ seg ∈ labelSegments r.labels, labelDelim <:+: seg) :
    r.readSortedLabels =
      ((sort.Strings (labelSegments r.labels)).map parseSegment, none) := by
  rw [readSortedLabels_nonempty r hne,
    loop_some _ (fun v hv => hd v ((mem_Strings _ v).mp hv))]

/-- Parsing sorted segments and writing them back gives the sorted segments. -/
theorem map_encode_parse (segs : List GoString) (h : ∀ v ∈ segs, labelDelim <:+: v) :
    (segs.map parseSegment).map metricLabel.encode = segs := by
  rw [List.map_map]
  conv_rhs => rw [← List.map_id segs]
  exact List.map_congr_left (fun v hv => encode_parseSegment v (h v hv))

end Labels

section LabelClaims

open protocol protocol.metricReader strings

/-- C7: for every non-empty `__labels__` string whose `'|'`-separated segments all hold the
delimiter `#$#`, `readSortedLabels` returns no error and labels whose re-joined segments
`key ++ "#$#" ++ value` are the input segments rearranged into increasing byte-wise
order: a sorted rearrangement of length `count('|') + 1`, which is the input order when
the input is already sorted; `"b#$#2|a#$#1"` gives `[("a","1"),("b","2")]`. -/
theorem readSortedLabels_sorted_perm (r : metricReader) (hne : r.labels ≠ [])
    (hd : ∀ seg ∈ labelSegments r.labels, labelDelim <:+: seg) :
    r.readSortedLabels.2 = none ∧
    (r.readSortedLabels.1.map metricLabel.encode).Perm (labelSegments r.labels) ∧
    (r.readSortedLabels.1.map metricLabel.encode).Sorted stringLE ∧
    r.readSortedLabels.1.length = Count r.labels 124 + 1 ∧
    ((labelSegments r.labels).Sorted stringLE →
      r.readSortedLabels.1.map metricLabel.encode = labelSegments r.labels) ∧
    (readerWithLabels (lit "b#$#2|a#$#1")).readSortedLabels =
      ([⟨lit "a", lit "1"⟩, ⟨lit "b", lit "2"⟩], none) := by
  have hs : ∀ v ∈ sort.Strings (labelSegments r.labels), labelDelim <:+: v :=
    fun v hv => hd v ((mem_Strings _ v).mp hv)
  rw [readSortedLabels_ok r hne hd]
  simp only [map_encode_parse _ hs, List.length_map]
  refine ⟨trivial, Strings_perm _, Strings_sorted _, ?_, ?_, by decide⟩
  · rw [(Strings_perm _).length_eq, labelSegments_length]
  · intro hsorted
    exact List.Sorted.insertionSort_eq hsorted

/-- C7, evaluated on `"k2#$#v|k1#$#w"`. -/
theorem readSortedLabels_sorted_perm_witness :
    (readerWithLabels (lit "k2#$#v|k1#$#w")).labels ≠ [] ∧
    (∀ seg ∈ labelSegments (readerWithLabels (lit "k2#$#v|k1#$#w")).labels,
      labelDelim <:+: seg) ∧
    (readerWithLabels (lit "k2#$#v|k1#$#w")).readSortedLabels.2 = none ∧
    ((readerWithLabels (lit "k2#$#v|k1#$#w")).readSortedLabels.1.map metricLabel.encode).Sorted
      stringLE ∧
    (readerWithLabels (lit "k2#$#v|k1#$#w")).readSortedLabels.1.length =
      Count (readerWithLabels (lit "k2#$#v|k1#$#w")).labels 124 + 1 :=
  have hd : ∀ seg ∈ labelSegments (readerWithLabels (lit "k2#$#v|k1#$#w")).labels,
      labelDelim <:+: seg := by decide
  have hthm := readSortedLabels_sorted_perm (readerWithLabels (lit "k2#$#v|k1#$#w"))
    (by decide) hd
  ⟨by decide, hd, hthm.1, hthm.2.2.1, hthm.2.2.2.1⟩

/-- C8: `readSortedLabels` returns an error exactly when the `__labels__` string is
non-empty and one of its `'|'`-separated segments lacks the delimiter `#$#`; the empty
segments left by a leading, a trailing or a doubled `'|'` are such segments; for the empty
string it returns an empty sequence and no error. -/
theorem readSortedLabels_error_iff (r : metricReader) :
    (r.readSortedLabels.2 ≠ none ↔
      r.labels ≠ [] ∧ ∃ seg ∈ labelSegments r.labels, ¬ labelDelim <:+: seg) ∧
    (r.labels = [] → r.readSortedLabels = ([], none)) ∧
    (readerWithLabels (lit "|a#$#1")).readSortedLabels = ([], some Error.MalformedLabel) ∧
    (readerWithLabels (lit "a#$#1|")).readSortedLabels = ([], some Error.MalformedLabel) ∧
    (readerWithLabels (lit "a#$#1||b#$#2")).readSortedLabels =
      ([], some Error.MalformedLabel) := by
  refine ⟨?_, readSortedLabels_empty r, by decide, by decide, by decide⟩
  by_cases he : r.labels = []
  · simp [readSortedLabels_empty r he, he]
  · by_cases hd : ∀ seg ∈ labelSegments r.labels, labelDelim <:+: seg
    · rw [readSortedLabels_ok r he hd]
      constructor
      · intro h; exact absurd rfl h
      · rintro ⟨_, seg, hseg, hbad⟩
        exact absurd (hd seg hseg) hbad
    · have hex : ∃ seg ∈ labelSegments r.labels, ¬ labelDelim <:+: seg := by
        push_neg at hd
        exact hd
      have hex2 : ∃ seg ∈ sort.Strings (labelSegments r.labels), ¬ labelDelim <:+: seg := by
        obtain ⟨seg, hseg, hbad⟩ := hex
        exact ⟨seg, (mem_Strings _ seg).mpr hseg, hbad⟩
      rw [readSortedLabels_nonempty r he, loop_none _ hex2]
      exact ⟨fun _ => ⟨he, hex⟩, fun _ => by simp⟩

/-- C9: two `__labels__` strings whose `'|'`-separated segment lists are rearrangements
of one another are read alike: `readSortedLabels` returns the same labels in the same
order, or an error for both. -/
theorem readSortedLabels_perm_invariant (r₁ r₂ : metricReader)
    (h : (labelSegments r₁.labels).Perm (labelSegments r₂.labels)) :
    r₁.readSortedLabels = r₂.readSortedLabels := by
  by_cases h1 : r₁.labels = []
  · have h2 : r₂.labels = [] := by
      apply labelSegments_eq_nil_singleton
      rw [h1, labelSegments_nil] at h
      exact List.perm_singleton.mp h.symm
    rw [readSortedLabels_empty r₁ h1, readSortedLabels_empty r₂ h2]
  · have h2 : r₂.labels ≠ [] := by
      intro h2
      apply h1
      apply labelSegments_eq_nil_singleton
      rw [h2, labelSegments_nil] at h
      exact List.perm_singleton.mp h
    rw [readSortedLabels_nonempty r₁ h1, readSortedLabels_nonempty r₂ h2,
      Strings_congr _ _ h]

/-- C9, evaluated: `"b#$#2|a#$#1"` and `"a#$#1|b#$#2"` are read alike. -/
theorem readSortedLabels_perm_invariant_witness :
    (labelSegments (readerWithLabels (lit "b#$#2|a#$#1")).labels).Perm
      (labelSegments (readerWithLabels (lit "a#$#1|b#$#2")).labels) ∧
    (readerWithLabels (lit "b#$#2|a#$#1")).readSortedLabels =
      (readerWithLabels (lit "a#$#1|b#$#2")).readSortedLabels :=
  have hp : (labelSegments (readerWithLabels (lit "b#$#2|a#$#1")).labels).Perm
      (labelSegments (readerWithLabels (lit "a#$#1|b#$#2")).labels) := by
    have h1 : labelSegments (readerWithLabels (lit "b#$#2|a#$#1")).labels =
        [lit "b#$#2", lit "a#$#1"] := by decide
    have h2 : labelSegments (readerWithLabels (lit "a#$#1|b#$#2")).labels =
        [lit "a#$#1", lit "b#$#2"] := by decide
    rw [h1, h2]
    exact List.Perm.swap _ _ _
  ⟨hp, readSortedLabels_perm_invariant _ _ hp⟩

end LabelClaims

section RoundTrip

open protocol protocol.metricReader strings

/-- In `key#$#value` the first `#$#` is the one written after the key, provided the key
neither holds `#$#` nor ends in `#$`. -/
theorem Index_encode (key value : GoString) (hkey : ¬ labelDelim <:+: key)
    (hend : ¬ lit "#$" <:+ key) :
    Index (key ++ labelDelim ++ value) labelDelim = key.length := by
  have hpair : lit "#$" = [35, 36] := by decide
  rw [labelDelim_eq] at hkey ⊢
  rw [hpair] at hend
  induction key with
  | nil => simp [Index]
  | cons b key ih =>
    have hk : ¬ [35, 36, 35] <:+: key := fun h => hkey (List.infix_cons h)
    have he : ¬ [35, 36] <:+ key := fun h => hend (h.trans (List.suffix_cons b key))
    have hnp : ¬ ([35, 36, 35] : GoString) <+: b :: key ++ [35, 36, 35] ++ value := by
      intro hp
      match key, hkey, hend with
      | [], _, _ =>
        simp only [List.nil_append, List.cons_append, List.cons_prefix_cons] at hp
        exact absurd hp.2.1 (by decide)
      | [k1], _, hend =>
        simp only [List.nil_append, List.cons_append, List.cons_prefix_cons] at hp
        apply hend
        rw [← hp.1, ← hp.2.1]
      | k1 :: k2 :: t, hkey, _ =>
        simp only [List.cons_append, List.cons_prefix_cons] at hp
        apply hkey
        rw [← hp.1, ← hp.2.1, ← hp.2.2.1]
        exact (List.prefix_append [35, 36, 35] t).isInfix
    have hnp2 : ¬ List.isPrefixOf ([35, 36, 35] : GoString)
        (b :: (key ++ [35, 36, 35] ++ value)) = true := by
      rw [List.isPrefixOf_iff_prefix]
      simpa using hnp
    have hih := ih hk he
    rw [List.cons_append, List.cons_append, Index, if_neg hnp2]
    simp only [hih]
    have hpos : ¬ ((key.length : Int) < 0) := by omega
    simp [hpos]

/-- Reading back a written label gives the label. -/
theorem parseSegment_encode (l : metricLabel) (hkey : ¬ labelDelim <:+: l.key)
    (hend : ¬ lit "#$" <:+ l.key) : parseSegment l.encode = l := by
  cases l with
  | mk key value =>
    have hidx := Index_encode key value hkey hend
    have h3 : ((key.length : Int) + 3).toNat = key.length + 3 := by omega
    unfold parseSegment metricLabel.encode
    simp only [lit_delim_eq, hidx, sliceTo, sliceFrom, h3, Int.toNat_ofNat]
    rw [List.append_assoc, List.take_left, List.drop_append]
    simp [labelDelim_eq]

/-- A written label holds no `'|'` when neither its key nor its value does. -/
theorem not_mem_encode (l : metricLabel) (h : (124 : UInt8) ∉ l.key ∧ (124 : UInt8) ∉ l.value) :
    (124 : UInt8) ∉ l.encode := by
  have hd : (124 : UInt8) ∉ labelDelim := by decide
  simp [metricLabel.encode, h.1, h.2, hd]

/-- The segments of a packed non-empty label list are the written labels. -/
theorem labelSegments_encodeLabels (ls : List metricLabel) (hne : ls ≠ [])
    (hbar : ∀ l ∈ ls, (124 : UInt8) ∉ l.key ∧ (124 : UInt8) ∉ l.value) :
    labelSegments (encodeLabels ls) = ls.map metricLabel.encode := by
  unfold labelSegments encodeLabels
  apply List.splitOn_intercalate
  · intro seg hseg
    obtain ⟨l, hl, rfl⟩ := List.mem_map.mp hseg
    exact not_mem_encode l (hbar l hl)
  · simpa using hne

/-- A packed non-empty label list is a non-empty string. -/
theorem encodeLabels_ne_nil (ls : List metricLabel) (hne : ls ≠ [])
    (hbar : ∀ l ∈ ls, (124 : UInt8) ∉ l.key ∧ (124 : UInt8) ∉ l.value) :
    encodeLabels ls ≠ [] := by
  intro he
  have hseg := labelSegments_encodeLabels ls hne hbar
  rw [he, labelSegments_nil] at hseg
  cases ls with
  | nil => exact hne rfl
  | cons l ls =>
    simp only [List.map_cons, List.cons.injEq] at hseg
    have : l.encode.length = 0 := by rw [← hseg.1]; rfl
    simp [metricLabel.encode, labelDelim_eq] at this

/-- C10 as stated fails: the key `a#$` holds neither `'|'` nor `#$#`, yet the label
`("a#$", "x")` is packed as `a#$#$#x` and read back as `("a", "$#x")`. -/
theorem readSortedLabels_roundtrip_counterexample :
    (∀ l ∈ [metricLabel.mk (lit "a#$") (lit "x")],
      (124 : UInt8) ∉ l.key ∧ (124 : UInt8) ∉ l.value) ∧
    (∀ l ∈ [metricLabel.mk (lit "a#$") (lit "x")], ¬ labelDelim <:+: l.key) ∧
    encodeLabels [metricLabel.mk (lit "a#$") (lit "x")] = lit "a#$#$#x" ∧
    (readerWithLabels (encodeLabels [metricLabel.mk (lit "a#$") (lit "x")])).readSortedLabels =
      ([metricLabel.mk (lit "a") (lit "$#x")], none) ∧
    ¬ ([metricLabel.mk (lit "a") (lit "$#x")]).Perm [metricLabel.mk (lit "a#$") (lit "x")] := by
  refine ⟨by decide, by decide, by decide, by decide, ?_⟩
  rw [List.perm_singleton]
  decide

/-- C10, amended: for every finite list of labels in which no key or value holds `'|'`
and no key holds the delimiter `#$#` or ends in `#$`, packing the list as `key#$#value`
segments joined by `'|'` and calling `readSortedLabels` on the result returns no error
and a rearrangement of the original list. -/
theorem readSortedLabels_roundtrip (ls : List metricLabel)
    (hbar : ∀ l ∈ ls, (124 : UInt8) ∉ l.key ∧ (124 : UInt8) ∉ l.value)
    (hkey : ∀ l ∈ ls, ¬ labelDelim <:+: l.key)
    (hend : ∀ l ∈ ls, ¬ lit "#$" <:+ l.key) :
    (readerWithLabels (encodeLabels ls)).readSortedLabels.2 = none ∧
    ((readerWithLabels (encodeLabels ls)).readSortedLabels.1).Perm ls := by
  by_cases hne : ls = []
  · subst hne
    exact ⟨by decide, by decide⟩
  · have hlab : (readerWithLabels (encodeLabels ls)).labels = encodeLabels ls := rfl
    have hseg := labelSegments_encodeLabels ls hne hbar
    have hd : ∀ seg ∈ labelSegments (readerWithLabels (encodeLabels ls)).labels,
        labelDelim <:+: seg := by
      intro seg hs
      rw [hlab, hseg] at hs
      obtain ⟨l, _, rfl⟩ := List.mem_map.mp hs
      exact ⟨l.key, l.value, rfl⟩
    rw [readSortedLabels_ok _ (by rw [hlab]; exact encodeLabels_ne_nil ls hne hbar) hd,
      hlab, hseg]
    refine ⟨rfl, ?_⟩
    have hback : (ls.map metricLabel.encode).map parseSegment = ls := by
      rw [List.map_map]
      conv_rhs => rw [← List.map_id ls]
      exact List.map_congr_left (fun l hl => parseSegment_encode l (hkey l hl) (hend l hl))
    have hperm := (Strings_perm (ls.map metricLabel.encode)).map parseSegment
    rw [hback] at hperm
    exact hperm

/-- C10 amended, evaluated on the labels `("b","2")`, `("a","1")`. -/
theorem readSortedLabels_roundtrip_witness :
    (∀ l ∈ [metricLabel.mk (lit "b") (lit "2"), metricLabel.mk (lit "a") (lit "1")],
      (124 : UInt8) ∉ l.key ∧ (124 : UInt8) ∉ l.value) ∧
    (∀ l ∈ [metricLabel.mk (lit "b") (lit "2"), metricLabel.mk (lit "a") (lit "1")],
      ¬ labelDelim <:+: l.key) ∧
    (∀ l ∈ [metricLabel.mk (lit "b") (lit "2"), metricLabel.mk (lit "a") (lit "1")],
      ¬ lit "#$" <:+ l.key) ∧
    (readerWithLabels (encodeLabels
      [metricLabel.mk (lit "b") (lit "2"), metricLabel.mk (lit "a") (lit "1")])).readSortedLabels.2
      = none ∧
    ((readerWithLabels (encodeLabels
      [metricLabel.mk (lit "b") (lit "2"), metricLabel.mk (lit "a") (lit "1")])).readSortedLabels.1).Perm
      [metricLabel.mk (lit "b") (lit "2"), metricLabel.mk (lit "a") (lit "1")] :=
  ⟨by decide, by decide, by decide,
   readSortedLabels_roundtrip
     [metricLabel.mk (lit "b") (lit "2"), metricLabel.mk (lit "a") (lit "1")] (by decide)
     (by decide) (by decide)⟩

end RoundTrip

/-! ## The number parser -/

section Numerals

open strconv

theorem decimal_foldl_ge (rest : GoString) (n : Nat) :
    n ≤ rest.foldl (fun acc c => acc * 10 + (c.toNat - 48)) n := by
  induction rest generalizing n with
  | nil => exact Nat.le_refl _
  | cons c rest ih =>
    rw [List.foldl_cons]
    exact Nat.le_trans (by omega) (ih _)

/-- On digits whose value fits `uint64`, the loop of `ParseUint` returns the value. -/
theorem ParseUint_loop_fits (s0 rest : GoString) (n : Nat)
    (hd : rest.all isDigit = true)
    (hfit : rest.foldl (fun acc c => acc * 10 + (c.toNat - 48)) n ≤ maxUint64) :
    ParseUint.loop s0 rest n = (rest.foldl (fun acc c => acc * 10 + (c.toNat - 48)) n, none) := by
  induction rest generalizing n with
  | nil => rfl
  | cons c rest ih =>
    rw [List.all_cons, Bool.and_eq_true] at hd
    rw [List.foldl_cons] at hfit ⊢
    have hc : 48 ≤ c.toNat ∧ c.toNat ≤ 57 := by simpa [isDigit] using hd.1
    have hge := decimal_foldl_ge rest (n * 10 + (c.toNat - 48))
    have hmax : maxUint64 = 18446744073709551615 := rfl
    have h1 : ¬ (n ≥ maxUint64 / 10 + 1) := by rw [hmax]; omega
    have h2 : wrapUint64 (n * 10) = n * 10 := by unfold wrapUint64; omega
    have h3 : wrapUint64 (n * 10 + (c.toNat - 48)) = n * 10 + (c.toNat - 48) := by
      unfold wrapUint64; omega
    have h4 : ¬ (n * 10 + (c.toNat - 48) < n * 10 ∨ n * 10 + (c.toNat - 48) > maxUint64) := by
      omega
    simp only [ParseUint.loop, if_pos hc, if_neg h1, h2, h3, if_neg h4]
    exact ih _ hd.2 hfit

/-- On digits whose value exceeds `uint64`, the loop of `ParseUint` reports a range error
with the value `maxUint64`. -/
theorem ParseUint_loop_overflow (s0 rest : GoString) (n : Nat)
    (hd : rest.all isDigit = true)
    (hbig : maxUint64 < rest.foldl (fun acc c => acc * 10 + (c.toNat - 48)) n)
    (hn : n ≤ maxUint64) :
    ParseUint.loop s0 rest n = (maxUint64, some (rangeError (lit "ParseUint") s0)) := by
  induction rest generalizing n with
  | nil => simp only [List.foldl_nil] at hbig; omega
  | cons c rest ih =>
    rw [List.all_cons, Bool.and_eq_true] at hd
    rw [List.foldl_cons] at hbig
    have hc : 48 ≤ c.toNat ∧ c.toNat ≤ 57 := by simpa [isDigit] using hd.1
    have hmax : maxUint64 = 18446744073709551615 := rfl
    simp only [ParseUint.loop, if_pos hc]
    by_cases h1 : n ≥ maxUint64 / 10 + 1
    · rw [if_pos h1]
    · rw [if_neg h1]
      have h2 : wrapUint64 (n * 10) = n * 10 := by
        unfold wrapUint64; rw [hmax] at h1; omega
      simp only [h2]
      by_cases h4 : wrapUint64 (n * 10 + (c.toNat - 48)) < n * 10 ∨
          wrapUint64 (n * 10 + (c.toNat - 48)) > maxUint64
      · rw [if_pos h4]
      · rw [if_neg h4]
        have h3 : wrapUint64 (n * 10 + (c.toNat - 48)) = n * 10 + (c.toNat - 48) := by
          unfold wrapUint64 at h4 ⊢; rw [hmax] at h1 h4; omega
        rw [h3]
        apply ih _ hd.2 hbig
        rw [h3] at h4
        omega

/-- Every error of the loop of `ParseUint` is a syntax error or comes with the value
`maxUint64`. -/
theorem ParseUint_loop_error (s0 rest : GoString) (n : Nat) (e : NumError)
    (h : (ParseUint.loop s0 rest n).2 = some e) :
    e.Err = Err.ErrSyntax ∨ (ParseUint.loop s0 rest n).1 = maxUint64 := by
  induction rest generalizing n with
  | nil => simp [ParseUint.loop] at h
  | cons c rest ih =>
    simp only [ParseUint.loop] at h ⊢
    split_ifs at h ⊢
    · exact Or.inr rfl
    · exact Or.inr rfl
    · exact ih _ h
    · simp only [Option.some.injEq] at h
      left; rw [← h]; rfl

/-- On a string holding a byte that is no digit, the loop of `ParseUint` fails. -/
theorem ParseUint_loop_nondigit (s0 rest : GoString) (n : Nat)
    (hd : ¬ rest.all isDigit = true) : (ParseUint.loop s0 rest n).2 ≠ none := by
  induction rest generalizing n with
  | nil => simp at hd
  | cons c rest ih =>
    rw [List.all_cons, Bool.and_eq_true, not_and_or] at hd
    simp only [ParseUint.loop]
    split_ifs with hc h1 h4
    · simp
    · simp
    · rcases hd with hd | hd
      · exact absurd (by simpa [isDigit] using hc) hd
      · exact ih _ hd
    · simp

end Numerals

section ParseIntLemmas

open strconv

/-- The digits that `ParseInt` hands to `ParseUint` are those the numeral is made of. -/
theorem ParseInt_digits (c : UInt8) (rest : GoString) :
    (if c = 43 then rest else if c = 45 then rest else c :: rest) =
      (if c = 43 ∨ c = 45 then rest else c :: rest) := by
  by_cases h1 : c = 43
  · simp [h1]
  · by_cases h2 : c = 45
    · simp [h2]
    · simp [h1, h2]

/-- Go's `ParseUint` on one or more digits whose value fits `uint64`. -/
theorem ParseUint_fits (digits : GoString) (hne : digits ≠ [])
    (hd : digits.all isDigit = true) (hfit : decimalValue digits ≤ maxUint64) :
    ParseUint digits = (decimalValue digits, none) := by
  unfold ParseUint
  rw [if_neg hne]
  exact ParseUint_loop_fits digits digits 0 hd hfit

/-- Go's `ParseUint` on digits whose value exceeds `uint64`. -/
theorem ParseUint_overflow (digits : GoString)
    (hd : digits.all isDigit = true) (hbig : maxUint64 < decimalValue digits) :
    ParseUint digits = (maxUint64, some (rangeError (lit "ParseUint") digits)) := by
  have hne : digits ≠ [] := by
    intro h; rw [h] at hbig; simp [decimalValue] at hbig
  unfold ParseUint
  rw [if_neg hne]
  exact ParseUint_loop_overflow digits digits 0 hd hbig (Nat.zero_le _)

/-- Go's `ParseUint` fails on the empty string and on a string with a non-digit; a range
error comes with the value `maxUint64`. -/
theorem ParseUint_bad (digits : GoString) (h : ¬ (digits ≠ [] ∧ digits.all isDigit = true)) :
    ∃ un e, ParseUint digits = (un, some e) ∧ (e.Err = Err.ErrSyntax ∨ un = maxUint64) := by
  unfold ParseUint
  by_cases hne : digits = []
  · rw [if_pos hne]
    exact ⟨_, _, rfl, Or.inl rfl⟩
  · rw [if_neg hne]
    have hd : ¬ digits.all isDigit = true := fun hd => h ⟨hne, hd⟩
    have herr := ParseUint_loop_nondigit digits digits 0 hd
    cases hres : (ParseUint.loop digits digits 0).2 with
    | none => exact absurd hres herr
    | some e =>
      refine ⟨(ParseUint.loop digits digits 0).1, e, ?_, ParseUint_loop_error _ _ _ e hres⟩
      rw [← hres]

/-- What `ParseInt` makes of a failure of `ParseUint`: an error in every case. -/
theorem ParseInt_of_error (c : UInt8) (rest : GoString) (un : Nat) (e : NumError)
    (hpu : ParseUint (if c = 43 ∨ c = 45 then rest else c :: rest) = (un, some e))
    (hcase : e.Err = Err.ErrSyntax ∨ un = maxUint64) :
    (ParseInt (c :: rest)).2 ≠ none := by
  have hmax : maxUint64 = 18446744073709551615 := rfl
  simp only [ParseInt, ParseInt_digits, hpu]
  by_cases hr : e.Err = Err.ErrRange
  · have hun : un = 18446744073709551615 := by
      rcases hcase with h | h
      · rw [hr] at h; cases h
      · rw [h, hmax]
    subst hun
    by_cases hneg : c = 45 <;> simp [hr, hneg]
  · simp [hr]

/-- What `ParseInt` makes of a success of `ParseUint`. -/
theorem ParseInt_of_value (c : UInt8) (rest : GoString) (un : Nat)
    (hpu : ParseUint (if c = 43 ∨ c = 45 then rest else c :: rest) = (un, none)) :
    ParseInt (c :: rest) =
      if c ≠ 45 ∧ un ≥ 9223372036854775808 then
        (9223372036854775807, some (rangeError (lit "ParseInt") (c :: rest)))
      else if c = 45 ∧ un > 9223372036854775808 then
        (-9223372036854775808, some (rangeError (lit "ParseInt") (c :: rest)))
      else (if c = 45 then wrapInt64 (-(wrapInt64 un)) else wrapInt64 un, none) := by
  simp only [ParseInt, ParseInt_digits, hpu]
  by_cases hneg : c = 45 <;> simp [hneg]

/-- The numeral's digits and value, spelled out. -/
theorem numeralValue_cons (c : UInt8) (rest : GoString) (v : Int)
    (h : numeralValue (c :: rest) = some v) :
    (if c = 43 ∨ c = 45 then rest else c :: rest) ≠ [] ∧
    (if c = 43 ∨ c = 45 then rest else c :: rest).all isDigit = true ∧
    v = (if c = 45 then -(decimalValue (if c = 43 ∨ c = 45 then rest else c :: rest) : Int)
          else (decimalValue (if c = 43 ∨ c = 45 then rest else c :: rest) : Int)) := by
  simp only [numeralValue] at h
  generalize (if c = 43 ∨ c = 45 then rest else c :: rest) = digits at h ⊢
  by_cases hd : digits ≠ [] ∧ digits.all isDigit = true
  · rw [if_pos hd] at h
    simp only [Option.some.injEq] at h
    exact ⟨hd.1, hd.2, h.symm⟩
  · rw [if_neg hd] at h
    cases h

/-- A numeral whose value fits `int64` is parsed to that value, with no error. -/
theorem ParseInt_numeral_fits (s : GoString) (v : Int) (h : numeralValue s = some v)
    (hlo : -9223372036854775808 ≤ v) (hhi : v ≤ 9223372036854775807) :
    ParseInt s = (v, none) := by
  cases s with
  | nil => simp [numeralValue] at h
  | cons c rest =>
    obtain ⟨hne, hd, hv⟩ := numeralValue_cons c rest v h
    have hmax : maxUint64 = 18446744073709551615 := rfl
    have hval := ParseInt_of_value c rest
    generalize (if c = 43 ∨ c = 45 then rest else c :: rest) = digits at hne hd hv hval
    have hfit : decimalValue digits ≤ maxUint64 := by
      rw [hmax]; split_ifs at hv <;> omega
    rw [hval _ (ParseUint_fits _ hne hd hfit)]
    by_cases hneg : c = 45
    · rw [if_pos hneg] at hv
      have h1 : ¬ (c ≠ 45 ∧ decimalValue digits ≥ 9223372036854775808) := fun hh => hh.1 hneg
      have h2 : ¬ (c = 45 ∧ decimalValue digits > 9223372036854775808) := by
        rintro ⟨_, hh⟩; omega
      rw [if_neg h1, if_neg h2, if_pos hneg]
      have hw : wrapInt64 (-(wrapInt64 (decimalValue digits : Int))) = v := by
        unfold wrapInt64; omega
      rw [hw]
    · rw [if_neg hneg] at hv
      have h1 : ¬ (c ≠ 45 ∧ decimalValue digits ≥ 9223372036854775808) := by
        rintro ⟨_, hh⟩; omega
      have h2 : ¬ (c = 45 ∧ decimalValue digits > 9223372036854775808) := fun hh => hneg hh.1
      rw [if_neg h1, if_neg h2, if_neg hneg]
      have hw : wrapInt64 (decimalValue digits : Int) = v := by
        unfold wrapInt64; omega
      rw [hw]

/-- A numeral whose value does not fit `int64` is rejected. -/
theorem ParseInt_numeral_overflow (s : GoString) (v : Int) (h : numeralValue s = some v)
    (hout : v < -9223372036854775808 ∨ 9223372036854775807 < v) :
    (ParseInt s).2 ≠ none := by
  cases s with
  | nil => simp [numeralValue] at h
  | cons c rest =>
    obtain ⟨hne, hd, hv⟩ := numeralValue_cons c rest v h
    have hmax : maxUint64 = 18446744073709551615 := rfl
    have hval := ParseInt_of_value c rest
    have herr := ParseInt_of_error c rest
    generalize (if c = 43 ∨ c = 45 then rest else c :: rest) = digits at hne hd hv hval herr
    by_cases hfit : decimalValue digits ≤ maxUint64
    · rw [hval _ (ParseUint_fits _ hne hd hfit)]
      by_cases hneg : c = 45
      · rw [if_pos hneg] at hv
        have h1 : ¬ (c ≠ 45 ∧ decimalValue digits ≥ 9223372036854775808) := fun hh => hh.1 hneg
        have h2 : c = 45 ∧ decimalValue digits > 9223372036854775808 := ⟨hneg, by omega⟩
        rw [if_neg h1, if_pos h2]
        simp
      · rw [if_neg hneg] at hv
        have h1 : c ≠ 45 ∧ decimalValue digits ≥ 9223372036854775808 := ⟨hneg, by omega⟩
        rw [if_pos h1]
        simp
    · exact herr _ _ (ParseUint_overflow _ hd (by omega)) (Or.inr rfl)

/-- A string that is no numeral is rejected. -/
theorem ParseInt_not_numeral (s : GoString) (h : numeralValue s = none) :
    (ParseInt s).2 ≠ none := by
  cases s with
  | nil => simp [ParseInt]
  | cons c rest =>
    have hbad : ¬ ((if c = 43 ∨ c = 45 then rest else c :: rest) ≠ [] ∧
        (if c = 43 ∨ c = 45 then rest else c :: rest).all isDigit = true) := by
      intro hd
      simp only [numeralValue] at h
      rw [if_pos hd] at h
      cases h
    obtain ⟨un, e, hpu, hcase⟩ := ParseUint_bad _ hbad
    exact ParseInt_of_error c rest un e hpu hcase

end ParseIntLemmas

section Rendering

open strconv

theorem digitByte_toNat (d : Nat) (h : d < 10) : (UInt8.ofNat (d + 48)).toNat = d + 48 := by
  have h10 : d = 0 ∨ d = 1 ∨ d = 2 ∨ d = 3 ∨ d = 4 ∨ d = 5 ∨ d = 6 ∨ d = 7 ∨ d = 8 ∨ d = 9 := by
    omega
  rcases h10 with h | h | h | h | h | h | h | h | h | h <;> subst h <;> rfl

/-- Reading digit bytes is reading the digits. -/
theorem decimal_foldl_map (L : List Nat) (m : Nat) (h : ∀ d ∈ L, d < 10) :
    (L.map (fun d => UInt8.ofNat (d + 48))).foldl (fun acc c => acc * 10 + (c.toNat - 48)) m =
      L.foldl (fun acc d => acc * 10 + d) m := by
  induction L generalizing m with
  | nil => rfl
  | cons d L ih =>
    rw [List.map_cons, List.foldl_cons, List.foldl_cons,
      digitByte_toNat d (h d (List.mem_cons_self _ _)),
      ih _ (fun e he => h e (List.mem_cons_of_mem _ he))]
    simp

/-- Reading digits most significant first gives the number they denote. -/
theorem foldr_ofDigits (L : List Nat) :
    L.foldr (fun d acc => acc * 10 + d) 0 = Nat.ofDigits 10 L := by
  induction L with
  | nil => rfl
  | cons d L ih => rw [List.foldr_cons, ih, Nat.ofDigits_cons]; omega

/-- The rendering of a natural number is made of digits. -/
theorem formatNat_digits (n : Nat) : (formatNat n).all isDigit = true := by
  unfold formatNat
  split_ifs with h0
  · decide
  · rw [List.all_eq_true]
    intro c hc
    obtain ⟨d, hd, rfl⟩ := List.mem_map.mp hc
    have hlt : d < 10 := Nat.digits_lt_base (by omega) (List.mem_reverse.mp hd)
    simp only [isDigit, digitByte_toNat d hlt]
    simp
    omega

/-- The rendering of a natural number is not empty. -/
theorem formatNat_ne_nil (n : Nat) : formatNat n ≠ [] := by
  unfold formatNat
  split_ifs with h0
  · simp
  · simp only [ne_eq, List.map_eq_nil_iff, List.reverse_eq_nil_iff]
    exact fun h => h0 (Nat.digits_eq_nil_iff_eq_zero.mp h)

/-- The rendering of a natural number denotes the number. -/
theorem decimalValue_formatNat (n : Nat) : decimalValue (formatNat n) = n := by
  unfold formatNat decimalValue
  split_ifs with h0
  · subst h0; rfl
  · rw [decimal_foldl_map _ 0
      (fun d hd => Nat.digits_lt_base (by omega) (List.mem_reverse.mp hd)),
      List.foldl_reverse, foldr_ofDigits, Nat.ofDigits_digits]

/-- The rendering of an integer is a numeral denoting the integer. -/
theorem numeralValue_FormatInt (n : Int) : numeralValue (FormatInt n) = some n := by
  have hd := formatNat_digits n.natAbs
  have hne := formatNat_ne_nil n.natAbs
  have hv := decimalValue_formatNat n.natAbs
  unfold FormatInt
  by_cases hn : n < 0
  · rw [if_pos hn]
    simp only [numeralValue, or_true, if_true, hd, hv]
    rw [if_pos ⟨hne, trivial⟩]
    congr 1
    omega
  · rw [if_neg hn]
    cases hf : formatNat n.natAbs with
    | nil => exact absurd hf hne
    | cons c rest =>
      rw [hf] at hd hv
      have hc : isDigit c = true := by
        rw [List.all_cons, Bool.and_eq_true] at hd; exact hd.1
      have hc2 : 48 ≤ c.toNat ∧ c.toNat ≤ 57 := by simpa [isDigit] using hc
      have h43 : ¬ c = 43 := by rintro rfl; revert hc2; decide
      have h45 : ¬ c = 45 := by rintro rfl; revert hc2; decide
      simp only [numeralValue, h43, h45, or_self, if_false, hd, hv]
      rw [if_pos ⟨by simp, trivial⟩]
      congr 1
      omega

end Rendering

/-! ## The metric reader: `readValue` and `readTimestamp` -/

section Values

open protocol protocol.metricReader strconv

/-- With `__type__` = `"int"`, `readValue` is `ParseInt`. -/
theorem readValue_of_int {F : Type} (pf : GoString → F × Nilable NumError) (r : metricReader)
    (hty : r.valueType = valueTypeInt) :
    r.readValue pf = (Value.int64 (ParseInt r.value).1, (ParseInt r.value).2) := by
  have h1 : ¬ valueTypeInt = valueTypeBool := by decide
  have h2 : ¬ valueTypeInt = valueTypeString := by decide
  simp only [readValue, hty, if_neg h1, if_neg h2, if_true]

/-- With `__type__` = `"bool"`, `readValue` is `ParseBool`. -/
theorem readValue_of_bool {F : Type} (pf : GoString → F × Nilable NumError) (r : metricReader)
    (hty : r.valueType = valueTypeBool) :
    r.readValue pf = (Value.bool (ParseBool r.value).1, (ParseBool r.value).2) := by
  simp only [readValue, hty, if_true]

/-- C11: with `__type__` = `"int"`, `readValue` reads `__value__` as a base-10 signed
64-bit integer: the decimal rendering of every `n` with `-2^63 ≤ n ≤ 2^63 - 1` is read
back as the integer `n` with no error, as is every numeral (optional sign, then digits)
denoting such an `n`; `"42"` gives 42; a numeral denoting a number outside that range
gives an error, and so does a string that is no base-10 integer numeral. -/
theorem readValue_int {F : Type} (pf : GoString → F × Nilable NumError) (r : metricReader)
    (hty : r.valueType = valueTypeInt) :
    (∀ n : Int, -9223372036854775808 ≤ n → n ≤ 9223372036854775807 →
      r.value = FormatInt n → r.readValue pf = (Value.int64 n, none)) ∧
    (∀ n : Int, numeralValue r.value = some n → -9223372036854775808 ≤ n →
      n ≤ 9223372036854775807 → r.readValue pf = (Value.int64 n, none)) ∧
    (∀ n : Int, numeralValue r.value = some n →
      (n < -9223372036854775808 ∨ 9223372036854775807 < n) → (r.readValue pf).2 ≠ none) ∧
    (numeralValue r.value = none → (r.readValue pf).2 ≠ none) ∧
    (readerWithValue (lit "42") (lit "int")).readValue pf = (Value.int64 42, none) := by
  rw [readValue_of_int pf r hty]
  refine ⟨?_, ?_, ?_, ?_, ?_⟩
  · intro n hlo hhi hv
    have hnum : numeralValue r.value = some n := by rw [hv]; exact numeralValue_FormatInt n
    rw [ParseInt_numeral_fits r.value n hnum hlo hhi]
  · intro n hnum hlo hhi
    rw [ParseInt_numeral_fits r.value n hnum hlo hhi]
  · intro n hnum hout
    exact ParseInt_numeral_overflow r.value n hnum hout
  · intro hnum
    exact ParseInt_not_numeral r.value hnum
  · rw [readValue_of_int pf _ rfl]
    have h42 : ParseInt (readerWithValue (lit "42") (lit "int")).value = (42, none) := by decide
    rw [h42]

/-- C11, evaluated: `"-9223372036854775808"` is read as the smallest `int64`, and
`"9223372036854775808"` is rejected. -/
theorem readValue_int_witness :
    (readerWithValue (lit "-9223372036854775808") (lit "int")).valueType = valueTypeInt ∧
    numeralValue (readerWithValue (lit "-9223372036854775808") (lit "int")).value =
      some (-9223372036854775808) ∧
    (readerWithValue (lit "-9223372036854775808") (lit "int")).readValue
      (fun _ => ((0 : Int), none)) = (Value.int64 (-9223372036854775808), none) ∧
    numeralValue (readerWithValue (lit "9223372036854775808") (lit "int")).value =
      some 9223372036854775808 ∧
    ((readerWithValue (lit "9223372036854775808") (lit "int")).readValue
      (fun _ => ((0 : Int), none))).2 ≠ none :=
  ⟨by decide, by decide,
   (readValue_int (fun _ => ((0 : Int), none))
      (readerWithValue (lit "-9223372036854775808") (lit "int")) (by decide)).2.1
      (-9223372036854775808) (by decide) (by decide) (by decide),
   by decide,
   (readValue_int (fun _ => ((0 : Int), none))
      (readerWithValue (lit "9223372036854775808") (lit "int")) (by decide)).2.2.1
      9223372036854775808 (by decide) (Or.inr (by decide))⟩

end Values

section BoolFloat

open protocol protocol.metricReader strconv

/-- C12: with `__type__` = `"bool"`, `readValue` returns true exactly for `"1"`, `"t"`,
`"T"`, `"TRUE"`, `"true"`, `"True"`, returns false exactly for `"0"`, `"f"`, `"F"`,
`"FALSE"`, `"false"`, `"False"`, and returns an error for every other string, the empty
string and `"tRuE"` among them. -/
theorem readValue_bool {F : Type} (pf : GoString → F × Nilable NumError) (r : metricReader)
    (hty : r.valueType = valueTypeBool) :
    (r.readValue pf = (Value.bool true, none) ↔
      r.value ∈ [lit "1", lit "t", lit "T", lit "TRUE", lit "true", lit "True"]) ∧
    (r.readValue pf = (Value.bool false, none) ↔
      r.value ∈ [lit "0", lit "f", lit "F", lit "FALSE", lit "false", lit "False"]) ∧
    ((r.readValue pf).2 ≠ none ↔
      r.value ∉ [lit "1", lit "t", lit "T", lit "TRUE", lit "true", lit "True",
                 lit "0", lit "f", lit "F", lit "FALSE", lit "false", lit "False"]) ∧
    ((readerWithValue (lit "") (lit "bool")).readValue pf).2 =
      some (syntaxError (lit "ParseBool") (lit "")) ∧
    ((readerWithValue (lit "tRuE") (lit "bool")).readValue pf).2 =
      some (syntaxError (lit "ParseBool") (lit "tRuE")) := by
  rw [readValue_of_bool pf r hty, readValue_of_bool pf _ rfl, readValue_of_bool pf _ rfl]
  refine ⟨?_, ?_, ?_,
    (by decide : (ParseBool (lit "")).2 = some (syntaxError (lit "ParseBool") (lit ""))),
    (by decide : (ParseBool (lit "tRuE")).2 = some (syntaxError (lit "ParseBool") (lit "tRuE")))⟩
  · by_cases ht : r.value = lit "1" ∨ r.value = lit "t" ∨ r.value = lit "T" ∨
        r.value = lit "true" ∨ r.value = lit "TRUE" ∨ r.value = lit "True"
    · have hmem : r.value ∈ [lit "1", lit "t", lit "T", lit "TRUE", lit "true", lit "True"] := by
        simp only [List.mem_cons, List.mem_singleton, List.not_mem_nil, or_false]
        tauto
      simp only [ParseBool, if_pos ht, hmem]
    · have hmem : r.value ∉ [lit "1", lit "t", lit "T", lit "TRUE", lit "true", lit "True"] := by
        simp only [List.mem_cons, List.mem_singleton, List.not_mem_nil, or_false]
        tauto
      simp only [ParseBool, if_neg ht, hmem, iff_false]
      split_ifs <;> simp
  · by_cases ht : r.value = lit "1" ∨ r.value = lit "t" ∨ r.value = lit "T" ∨
        r.value = lit "true" ∨ r.value = lit "TRUE" ∨ r.value = lit "True"
    · have hmem : r.value ∉ [lit "0", lit "f", lit "F", lit "FALSE", lit "false", lit "False"] := by
        rcases ht with h | h | h | h | h | h <;> rw [h] <;> decide
      simp only [ParseBool, if_pos ht, hmem, iff_false]
      simp
    · by_cases hf : r.value = lit "0" ∨ r.value = lit "f" ∨ r.value = lit "F" ∨
          r.value = lit "false" ∨ r.value = lit "FALSE" ∨ r.value = lit "False"
      · have hmem : r.value ∈ [lit "0", lit "f", lit "F", lit "FALSE", lit "false", lit "False"] := by
          simp only [List.mem_cons, List.mem_singleton, List.not_mem_nil, or_false]
          tauto
        simp only [ParseBool, if_neg ht, if_pos hf, hmem]
      · have hmem : r.value ∉ [lit "0", lit "f", lit "F", lit "FALSE", lit "false", lit "False"] := by
          simp only [List.mem_cons, List.mem_singleton, List.not_mem_nil, or_false]
          tauto
        simp only [ParseBool, if_neg ht, if_neg hf, hmem, iff_false]
        simp
  · by_cases ht : r.value = lit "1" ∨ r.value = lit "t" ∨ r.value = lit "T" ∨
        r.value = lit "true" ∨ r.value = lit "TRUE" ∨ r.value = lit "True"
    · have hmem : ¬ r.value ∉ [lit "1", lit "t", lit "T", lit "TRUE", lit "true", lit "True",
          lit "0", lit "f", lit "F", lit "FALSE", lit "false", lit "False"] := by
        simp only [List.mem_cons, List.mem_singleton, List.not_mem_nil, or_false]
        tauto
      simp only [ParseBool, if_pos ht, hmem, iff_false]
      simp
    · by_cases hf : r.value = lit "0" ∨ r.value = lit "f" ∨ r.value = lit "F" ∨
          r.value = lit "false" ∨ r.value = lit "FALSE" ∨ r.value = lit "False"
      · have hmem : ¬ r.value ∉ [lit "1", lit "t", lit "T", lit "TRUE", lit "true", lit "True",
            lit "0", lit "f", lit "F", lit "FALSE", lit "false", lit "False"] := by
          simp only [List.mem_cons, List.mem_singleton, List.not_mem_nil, or_false]
          tauto
        simp only [ParseBool, if_neg ht, if_pos hf, hmem, iff_false]
        simp
      · have hmem : r.value ∉ [lit "1", lit "t", lit "T", lit "TRUE", lit "true", lit "True",
            lit "0", lit "f", lit "F", lit "FALSE", lit "false", lit "False"] := by
          simp only [List.mem_cons, List.mem_singleton, List.not_mem_nil, or_false]
          tauto
        simp only [ParseBool, if_neg ht, if_neg hf, hmem, iff_true]
        simp

/-- C12, evaluated: `"True"` is read as true. -/
theorem readValue_bool_witness :
    (readerWithValue (lit "True") (lit "bool")).valueType = valueTypeBool ∧
    (readerWithValue (lit "True") (lit "bool")).value ∈
      [lit "1", lit "t", lit "T", lit "TRUE", lit "true", lit "True"] ∧
    (readerWithValue (lit "True") (lit "bool")).readValue (fun _ => ((0 : Int), none)) =
      (Value.bool true, none) :=
  ⟨by decide, by decide,
   (readValue_bool (fun _ => ((0 : Int), none)) (readerWithValue (lit "True") (lit "bool"))
      (by decide)).1.mpr (by decide)⟩

/-- C13: float is the default parse rule: for every `__type__` other than exactly
`"bool"`, `"string"` and `"int"` (the empty string, `"float"`, `"INT"`, ...) and every
`__value__`, `readValue` returns what `strconv.ParseFloat` returns, the same as for
`__type__` = `"float"`; for `__type__` = `"string"` it returns `__value__` unchanged with
no error. -/
theorem readValue_float_default {F : Type} (pf : GoString → F × Nilable NumError)
    (r : metricReader) :
    (r.valueType ≠ valueTypeBool → r.valueType ≠ valueTypeString →
      r.valueType ≠ valueTypeInt →
      r.readValue pf = (Value.float64 (pf r.value).1, (pf r.value).2) ∧
      r.readValue pf = ({ r with valueType := valueTypeFloat } : metricReader).readValue pf) ∧
    (r.valueType = valueTypeString → r.readValue pf = (Value.string r.value, none)) ∧
    (readerWithValue r.value (lit "")).readValue pf =
      (readerWithValue r.value (lit "float")).readValue pf ∧
    (readerWithValue r.value (lit "INT")).readValue pf =
      (readerWithValue r.value (lit "float")).readValue pf := by
  have hf1 : ¬ valueTypeFloat = valueTypeBool := by decide
  have hf2 : ¬ valueTypeFloat = valueTypeString := by decide
  have hf3 : ¬ valueTypeFloat = valueTypeInt := by decide
  have hs : ¬ valueTypeString = valueTypeBool := by decide
  have he1 : ¬ lit "" = valueTypeBool := by decide
  have he2 : ¬ lit "" = valueTypeString := by decide
  have he3 : ¬ lit "" = valueTypeInt := by decide
  have hi1 : ¬ lit "INT" = valueTypeBool := by decide
  have hi2 : ¬ lit "INT" = valueTypeString := by decide
  have hi3 : ¬ lit "INT" = valueTypeInt := by decide
  have hl : lit "float" = valueTypeFloat := rfl
  refine ⟨?_, ?_, ?_, ?_⟩
  · intro h1 h2 h3
    simp only [readValue, if_neg h1, if_neg h2, if_neg h3, if_neg hf1, if_neg hf2, if_neg hf3,
      and_self]
  · intro h
    simp only [readValue, h, if_neg hs, if_true]
  · simp only [readValue, readerWithValue, hl, if_neg he1, if_neg he2, if_neg he3, if_neg hf1,
      if_neg hf2, if_neg hf3]
  · simp only [readValue, readerWithValue, hl, if_neg hi1, if_neg hi2, if_neg hi3, if_neg hf1,
      if_neg hf2, if_neg hf3]

end BoolFloat

section Timestamp

open protocol protocol.metricReader strconv

theorem unixToInternal_eq : time.unixToInternal = 62135596800 := by decide

/-- Truncated division and remainder by `1e9`, bounded. -/
theorem tdiv_tmod_bounds (t : Int) (hlo : -9223372036854775808 ≤ t)
    (hhi : t ≤ 9223372036854775807) :
    t.tdiv 1000000000 * 1000000000 + t.tmod 1000000000 = t ∧
    -1000000000 < t.tmod 1000000000 ∧ t.tmod 1000000000 < 1000000000 ∧
    -9223372037 ≤ t.tdiv 1000000000 ∧ t.tdiv 1000000000 ≤ 9223372037 := by
  have hsum := Int.tmod_add_tdiv t 1000000000
  by_cases ht : 0 ≤ t
  · have hd := Int.tdiv_eq_ediv ht (by omega : (0 : Int) ≤ 1000000000)
    omega
  · have hneg := Int.neg_tdiv (-t) 1000000000
    rw [neg_neg] at hneg
    have hd := Int.tdiv_eq_ediv (by omega : (0 : Int) ≤ -t) (by omega : (0 : Int) ≤ 1000000000)
    omega

/-- A remainder strictly between `-1e9` and `1e9` has truncated quotient zero. -/
theorem tdiv_small (n : Int) (hlo : -1000000000 < n) (hhi : n < 1000000000) :
    n.tdiv 1000000000 = 0 := by
  by_cases ht : 0 ≤ n
  · rw [Int.tdiv_eq_ediv ht (by omega)]; omega
  · have hneg := Int.neg_tdiv (-n) 1000000000
    rw [neg_neg] at hneg
    rw [hneg, Int.tdiv_eq_ediv (by omega) (by omega)]; omega

/-- Go's `time.Unix` on seconds and a nanosecond part of either sign: the instant is
`sec * 1e9 + nsec` nanoseconds from the Unix epoch, with the nanoseconds normalised. -/
theorem Unix_instant (sec nsec : Int) (hs1 : -9223372037 ≤ sec) (hs2 : sec ≤ 9223372037)
    (hn1 : -1000000000 < nsec) (hn2 : nsec < 1000000000) :
    (time.Unix sec nsec).unixSec * 1000000000 + (time.Unix sec nsec).nsec =
      sec * 1000000000 + nsec ∧
    0 ≤ (time.Unix sec nsec).nsec ∧ (time.Unix sec nsec).nsec < 1000000000 := by
  have hq := tdiv_small nsec hn1 hn2
  have hu := unixToInternal_eq
  by_cases hneg : nsec < 0
  · have hc : nsec < 0 ∨ nsec ≥ 1000000000 := Or.inl hneg
    have e1 : wrapInt64 (sec + 0) = sec := by unfold wrapInt64; omega
    have e2 : wrapInt64 ((0 : Int) * 1000000000) = 0 := by decide
    have e3 : wrapInt64 (nsec - 0) = nsec := by unfold wrapInt64; omega
    have e4 : wrapInt64 (sec - 1) = sec - 1 := by unfold wrapInt64; omega
    have e5 : wrapInt64 (nsec + 1000000000) = nsec + 1000000000 := by unfold wrapInt64; omega
    have e6 : wrapInt64 (sec - 1 + time.unixToInternal) = sec - 1 + time.unixToInternal := by
      rw [hu]; unfold wrapInt64; omega
    simp only [time.Unix, if_pos hc, hq, e1, e2, e3, if_pos hneg, e4, e5, time.unixTime, e6,
      time.Time.unixSec]
    omega
  · have hc : ¬ (nsec < 0 ∨ nsec ≥ 1000000000) := by omega
    have e6 : wrapInt64 (sec + time.unixToInternal) = sec + time.unixToInternal := by
      rw [hu]; unfold wrapInt64; omega
    simp only [time.Unix, if_neg hc, time.unixTime, e6, time.Time.unixSec]
    omega

/-- On a non-empty `__time_nano__`, `readTimestamp` goes through `ParseInt`. -/
theorem readTimestamp_nonempty (r : metricReader) (hne : r.timestamp ≠ []) :
    r.readTimestamp =
      match ParseInt r.timestamp with
      | (_, some err) => (time.zero, some err)
      | (t, none) => ((time.Unix (t.tdiv 1000000000) (t.tmod 1000000000)).UTC, none) := by
  have hlen : ¬ r.timestamp.length = 0 := by rw [List.length_eq_zero]; exact hne
  simp only [readTimestamp, if_neg hlen]

/-- C14: `readTimestamp` returns the zero-value instant with no error when `__time_nano__`
is empty; for every signed 64-bit integer `t` given as a base-10 numeral (its decimal
rendering included, negative values too) it returns, with no error, the instant `t`
nanoseconds from the Unix epoch, as seconds `s` and nanoseconds `n` with
`s * 10^9 + n = t` and `0 ≤ n < 10^9`; every other non-empty string gives an error. -/
theorem readTimestamp_spec (r : metricReader) :
    (r.timestamp = [] → r.readTimestamp = (time.zero, none)) ∧
    (∀ t : Int, numeralValue r.timestamp = some t → -9223372036854775808 ≤ t →
      t ≤ 9223372036854775807 →
      r.readTimestamp.2 = none ∧
      r.readTimestamp.1.unixSec * 1000000000 + r.readTimestamp.1.nsec = t ∧
      0 ≤ r.readTimestamp.1.nsec ∧ r.readTimestamp.1.nsec < 1000000000) ∧
    (∀ t : Int, r.timestamp = FormatInt t → -9223372036854775808 ≤ t →
      t ≤ 9223372036854775807 →
      r.readTimestamp.2 = none ∧
      r.readTimestamp.1.unixSec * 1000000000 + r.readTimestamp.1.nsec = t ∧
      0 ≤ r.readTimestamp.1.nsec ∧ r.readTimestamp.1.nsec < 1000000000) ∧
    (r.timestamp ≠ [] →
      (¬ ∃ t : Int, numeralValue r.timestamp = some t ∧ -9223372036854775808 ≤ t ∧
        t ≤ 9223372036854775807) →
      r.readTimestamp.2 ≠ none) ∧
    (readerWithTimestamp (lit "-1")).readTimestamp =
      ({ sec := time.unixToInternal - 1, nsec := 999999999 }, none) := by
  have main : ∀ t : Int, numeralValue r.timestamp = some t → -9223372036854775808 ≤ t →
      t ≤ 9223372036854775807 →
      r.readTimestamp.2 = none ∧
      r.readTimestamp.1.unixSec * 1000000000 + r.readTimestamp.1.nsec = t ∧
      0 ≤ r.readTimestamp.1.nsec ∧ r.readTimestamp.1.nsec < 1000000000 := by
    intro t hnum hlo hhi
    have hne : r.timestamp ≠ [] := by
      intro h; rw [h] at hnum; simp [numeralValue] at hnum
    obtain ⟨hsum, hm1, hm2, hq1, hq2⟩ := tdiv_tmod_bounds t hlo hhi
    obtain ⟨hi1, hi2, hi3⟩ := Unix_instant _ _ hq1 hq2 hm1 hm2
    rw [readTimestamp_nonempty r hne, ParseInt_numeral_fits r.timestamp t hnum hlo hhi]
    simp only [time.Time.UTC]
    exact ⟨trivial, by omega, hi2, hi3⟩
  refine ⟨?_, main, ?_, ?_, by decide⟩
  · intro h
    simp [readTimestamp, h]
  · intro t ht hlo hhi
    exact main t (by rw [ht]; exact numeralValue_FormatInt t) hlo hhi
  · intro hne hnot
    rw [readTimestamp_nonempty r hne]
    have herr : (ParseInt r.timestamp).2 ≠ none := by
      cases hnum : numeralValue r.timestamp with
      | none => exact ParseInt_not_numeral _ hnum
      | some t =>
        apply ParseInt_numeral_overflow _ t hnum
        by_contra hc
        exact hnot ⟨t, hnum, by omega, by omega⟩
    cases hp : ParseInt r.timestamp with
    | mk t e =>
      cases e with
      | none => rw [hp] at herr; exact absurd rfl herr
      | some err => simp

end Timestamp

/-! ## The metric reader: what `set` keeps -/

section SetExact

open protocol protocol.metricReader

/-- The method `reset` leaves the reader as `readerPool.New` makes it. -/
theorem reset_eq_New (r : metricReader) : r.reset = readerPool.New := rfl

theorem lastValueOr_nil (key dflt : GoString) : lastValueOr key [] dflt = dflt := rfl

theorem lastValueOr_cons (key dflt : GoString) (v : Log_Content) (l : List Log_Content) :
    lastValueOr key (v :: l) dflt =
      lastValueOr key l (if v.Key = key then v.Value else dflt) := by
  unfold lastValueOr
  by_cases h : v.Key = key
  · rw [List.filter_cons_of_pos (by simpa using h), List.getLast?_cons, if_pos h]
    cases (List.filter (fun v => decide (v.Key = key)) l).getLast? <;> rfl
  · rw [List.filter_cons_of_neg (by simpa using h), if_neg h]

/-- A field with another key does not change the last value for a key. -/
theorem lastValueOr_skip (key dflt : GoString) (v : Log_Content) (pre post : List Log_Content)
    (h : v.Key ≠ key) :
    lastValueOr key (pre ++ v :: post) dflt = lastValueOr key (pre ++ post) dflt := by
  unfold lastValueOr
  rw [List.filter_append, List.filter_append, List.filter_cons_of_neg (by simpa using h)]

/-- One field of the record, field by field of the reader. -/
theorem set_step_fields (r : metricReader) (v : Log_Content) :
    set.step r v =
      { name := if v.Key = metricNameKey then v.Value else r.name,
        labels := if v.Key = metricLabelsKey then v.Value else r.labels,
        value := if v.Key = metricValueKey then v.Value else r.value,
        valueType := if v.Key = metricValueTypeKey then v.Value else r.valueType,
        timestamp := if v.Key = metricTimeNanoKey then v.Value else r.timestamp } := by
  unfold set.step
  by_cases h1 : v.Key = metricNameKey
  · have e2 : ¬ metricNameKey = metricLabelsKey := by decide
    have e3 : ¬ metricNameKey = metricValueKey := by decide
    have e4 : ¬ metricNameKey = metricValueTypeKey := by decide
    have e5 : ¬ metricNameKey = metricTimeNanoKey := by decide
    simp only [h1, if_true, if_neg e2, if_neg e3, if_neg e4, if_neg e5]
  by_cases h2 : v.Key = metricLabelsKey
  · have e3 : ¬ metricLabelsKey = metricValueKey := by decide
    have e4 : ¬ metricLabelsKey = metricValueTypeKey := by decide
    have e5 : ¬ metricLabelsKey = metricTimeNanoKey := by decide
    have e1 : ¬ metricLabelsKey = metricNameKey := by decide
    simp only [h2, if_true, if_neg e1, if_neg e3, if_neg e4, if_neg e5]
  by_cases h3 : v.Key = metricTimeNanoKey
  · have e1 : ¬ metricTimeNanoKey = metricNameKey := by decide
    have e2 : ¬ metricTimeNanoKey = metricLabelsKey := by decide
    have e4 : ¬ metricTimeNanoKey = metricValueKey := by decide
    have e5 : ¬ metricTimeNanoKey = metricValueTypeKey := by decide
    simp only [h3, if_true, if_neg e1, if_neg e2, if_neg e4, if_neg e5]
  by_cases h4 : v.Key = metricValueKey
  · have e1 : ¬ metricValueKey = metricNameKey := by decide
    have e2 : ¬ metricValueKey = metricLabelsKey := by decide
    have e3 : ¬ metricValueKey = metricTimeNanoKey := by decide
    have e5 : ¬ metricValueKey = metricValueTypeKey := by decide
    simp only [h4, if_true, if_neg e1, if_neg e2, if_neg e3, if_neg e5]
  by_cases h5 : v.Key = metricValueTypeKey
  · have e1 : ¬ metricValueTypeKey = metricNameKey := by decide
    have e2 : ¬ metricValueTypeKey = metricLabelsKey := by decide
    have e3 : ¬ metricValueTypeKey = metricTimeNanoKey := by decide
    have e4 : ¬ metricValueTypeKey = metricValueKey := by decide
    simp only [h5, if_true, if_neg e1, if_neg e2, if_neg e3, if_neg e4]
  simp only [if_neg h1, if_neg h2, if_neg h3, if_neg h4, if_neg h5]

/-- The scan of `set` leaves in each field the last value with its key. -/
theorem foldl_step_fields (l : List Log_Content) (r : metricReader) :
    l.foldl set.step r =
      { name := lastValueOr metricNameKey l r.name,
        labels := lastValueOr metricLabelsKey l r.labels,
        value := lastValueOr metricValueKey l r.value,
        valueType := lastValueOr metricValueTypeKey l r.valueType,
        timestamp := lastValueOr metricTimeNanoKey l r.timestamp } := by
  induction l generalizing r with
  | nil => rfl
  | cons v l ih =>
    rw [List.foldl_cons, ih, set_step_fields]
    simp only [lastValueOr_cons]

/-- The reader that `set` leaves behind. -/
theorem set_state (r : metricReader) (log : Log) :
    (r.set log).1 =
      { name := lastValue metricNameKey log.Contents,
        labels := lastValue metricLabelsKey log.Contents,
        value := lastValue metricValueKey log.Contents,
        valueType := lastValue metricValueTypeKey log.Contents,
        timestamp := lastValue metricTimeNanoKey log.Contents } := by
  have h := foldl_step_fields log.Contents r.reset
  unfold metricReader.set
  simp only [lastValue]
  split_ifs <;> exact h

/-- The error that `set` returns. -/
theorem set_error (r : metricReader) (log : Log) :
    (r.set log).2 =
      if (r.set log).1.name.length = 0 ∨ (r.set log).1.value.length = 0 then
        some Error.MissingRequiredField
      else none := by
  by_cases hc : (log.Contents.foldl set.step r.reset).name.length = 0 ∨
      (log.Contents.foldl set.step r.reset).value.length = 0
  · have e : r.set log = (log.Contents.foldl set.step r.reset, some Error.MissingRequiredField) := by
      simp only [metricReader.set, if_pos hc]
    rw [e]
    exact (if_pos hc).symm
  · have e : r.set log = (log.Contents.foldl set.step r.reset, none) := by
      simp only [metricReader.set, if_neg hc]
    rw [e]
    exact (if_neg hc).symm

end SetExact

section SetClaims

open protocol protocol.metricReader

/-- C15: `set` resets the reader first, so nothing of an earlier record is left: for
every record and every two prior reader states, `set` leaves the same name, labels,
value, valueType and timestamp and returns the same error; and `reset` leaves all five
fields empty, as in a reader fresh from `readerPool.New`. -/
theorem set_independent_of_prior (log : Log) (r₁ r₂ : metricReader) :
    (r₁.set log).1.name = (r₂.set log).1.name ∧
    (r₁.set log).1.labels = (r₂.set log).1.labels ∧
    (r₁.set log).1.value = (r₂.set log).1.value ∧
    (r₁.set log).1.valueType = (r₂.set log).1.valueType ∧
    (r₁.set log).1.timestamp = (r₂.set log).1.timestamp ∧
    (r₁.set log).2 = (r₂.set log).2 ∧
    r₁.reset = readerPool.New ∧
    r₁.reset.name = [] ∧ r₁.reset.labels = [] ∧ r₁.reset.value = [] ∧
    r₁.reset.valueType = [] ∧ r₁.reset.timestamp = [] := by
  have hstate : (r₁.set log).1 = (r₂.set log).1 := by
    rw [set_state r₁ log, set_state r₂ log]
  have herr : (r₁.set log).2 = (r₂.set log).2 := by
    rw [set_error r₁ log, set_error r₂ log, hstate]
  refine ⟨?_, ?_, ?_, ?_, ?_, herr, rfl, rfl, rfl, rfl, rfl, rfl⟩ <;> rw [hstate]

/-- C19: after `set(record)`, each of name, labels, timestamp, value and valueType is the
value of the last field of the record whose key is `__name__`, `__labels__`,
`__time_nano__`, `__value__`, `__type__` respectively (empty when there is none); a field
with any other key is ignored; and `set` returns nil exactly when the resulting name and
value are both non-empty, so a record whose `__value__` is present but empty is
rejected. -/
theorem set_last_wins (r : metricReader) (log : Log) :
    (r.set log).1.name = lastValue metricNameKey log.Contents ∧
    (r.set log).1.labels = lastValue metricLabelsKey log.Contents ∧
    (r.set log).1.timestamp = lastValue metricTimeNanoKey log.Contents ∧
    (r.set log).1.value = lastValue metricValueKey log.Contents ∧
    (r.set log).1.valueType = lastValue metricValueTypeKey log.Contents ∧
    (∀ (pre post : List Log_Content) (v : Log_Content),
      v.Key ≠ metricNameKey → v.Key ≠ metricLabelsKey → v.Key ≠ metricTimeNanoKey →
      v.Key ≠ metricValueKey → v.Key ≠ metricValueTypeKey →
      r.set ⟨pre ++ v :: post⟩ = r.set ⟨pre ++ post⟩) ∧
    ((r.set log).2 = none ↔ (r.set log).1.name ≠ [] ∧ (r.set log).1.value ≠ []) ∧
    (metricReader.set r ⟨[⟨lit "__name__", lit "cpu"⟩, ⟨lit "__value__", lit ""⟩]⟩).2 =
      some Error.MissingRequiredField ∧
    (metricReader.set r ⟨[⟨lit "__name__", lit "a"⟩, ⟨lit "__value__", lit "1"⟩,
        ⟨lit "other", lit "x"⟩, ⟨lit "__name__", lit "b"⟩]⟩) =
      (⟨lit "b", [], lit "1", [], []⟩, none) := by
  have hstate := set_state r log
  refine ⟨by rw [hstate], by rw [hstate], by rw [hstate], by rw [hstate], by rw [hstate],
    ?_, ?_, ?_, ?_⟩
  · intro pre post v h1 h2 h3 h4 h5
    have hs : (r.set ⟨pre ++ v :: post⟩).1 = (r.set ⟨pre ++ post⟩).1 := by
      rw [set_state, set_state]
      simp only [lastValue, lastValueOr_skip _ _ v pre post h1,
        lastValueOr_skip _ _ v pre post h2, lastValueOr_skip _ _ v pre post h3,
        lastValueOr_skip _ _ v pre post h4, lastValueOr_skip _ _ v pre post h5]
    have he : (r.set ⟨pre ++ v :: post⟩).2 = (r.set ⟨pre ++ post⟩).2 := by
      rw [set_error, set_error, hs]
    exact Prod.ext hs he
  · rw [set_error r log]
    by_cases hc : (r.set log).1.name.length = 0 ∨ (r.set log).1.value.length = 0
    · rw [if_pos hc]
      simp only [List.length_eq_zero] at hc
      constructor
      · intro h; cases h
      · rintro ⟨h1, h2⟩
        rcases hc with h | h
        · exact absurd h h1
        · exact absurd h h2
    · rw [if_neg hc]
      simp only [List.length_eq_zero, not_or] at hc
      exact ⟨fun _ => hc, fun _ => rfl⟩
  · rw [set_error, set_state]
    decide
  · apply Prod.ext
    · rw [set_state]; decide
    · rw [set_error, set_state]; decide

end SetClaims

/-! ## Decoder selection: options, registration, shadowing -/

section Registration

open decoder strings

/-- For a built-in name the decoder is made without a look at the extension registry. -/
theorem GetDecoderWithOptions_of_builtin (u : Unicode) (c : common) (now : time.Time)
    (f : GoString) (option : decoder.Option)
    (h : TrimSpace u (ToLower u f) ∈ c.builtin) :
    ∃ d, ∀ reg, GetDecoderWithOptions u c now reg f option = (some d, none) := by
  simp only [common.builtin, List.mem_cons, List.mem_singleton, List.not_mem_nil,
    or_false] at h
  simp only [GetDecoderWithOptions]
  generalize TrimSpace u (ToLower u f) = t at h ⊢
  by_cases h1 : t = c.ProtocolSLS
  · refine ⟨Decoder.sls, fun _ => ?_⟩
    simp only [if_pos h1]
  by_cases h2 : t = c.ProtocolPrometheus
  · refine ⟨Decoder.prometheus, fun _ => ?_⟩
    simp only [if_neg h1, if_pos h2]
  by_cases h3 : t = c.ProtocolInflux ∨ t = c.ProtocolInfluxdb
  · refine ⟨Decoder.influxdb option.FieldsExtend, fun _ => ?_⟩
    simp only [if_neg h1, if_neg h2, if_pos h3]
  by_cases h4 : t = c.ProtocolStatsd
  · refine ⟨Decoder.statsd now, fun _ => ?_⟩
    simp only [if_neg h1, if_neg h2, if_neg h3, if_pos h4]
  by_cases h5 : t = c.ProtocolOTLPLogV1
  · refine ⟨Decoder.opentelemetry c.ProtocolOTLPLogV1, fun _ => ?_⟩
    simp only [if_neg h1, if_neg h2, if_neg h3, if_neg h4, if_pos h5]
  by_cases h6 : t = c.ProtocolOTLPMetricV1
  · refine ⟨Decoder.opentelemetry c.ProtocolOTLPMetricV1, fun _ => ?_⟩
    simp only [if_neg h1, if_neg h2, if_neg h3, if_neg h4, if_neg h5, if_pos h6]
  by_cases h7 : t = c.ProtocolOTLPTraceV1
  · refine ⟨Decoder.opentelemetry c.ProtocolOTLPTraceV1, fun _ => ?_⟩
    simp only [if_neg h1, if_neg h2, if_neg h3, if_neg h4, if_neg h5, if_neg h6, if_pos h7]
  by_cases h8 : t = c.ProtocolRaw
  · refine ⟨Decoder.raw option.DisableUncompress, fun _ => ?_⟩
    simp only [if_neg h1, if_neg h2, if_neg h3, if_neg h4, if_neg h5, if_neg h6, if_neg h7, if_pos h8]
  by_cases h9 : t = c.ProtocolPyroscope
  · refine ⟨Decoder.pyroscope, fun _ => ?_⟩
    simp only [if_neg h1, if_neg h2, if_neg h3, if_neg h4, if_neg h5, if_neg h6, if_neg h7, if_neg h8, if_pos h9]
  exfalso
  rw [not_or] at h3
  rcases h with h | h | h | h | h | h | h | h | h | h
  · exact h1 h
  · exact h2 h
  · exact h3.1 h
  · exact h3.2 h
  · exact h4 h
  · exact h5 h
  · exact h6 h
  · exact h7 h
  · exact h8 h
  · exact h9 h

/-- Every name that `RegisterDecodersAsExtension` registers is a built-in name. -/
theorem protocols_subset_builtin (c : common) (p : GoString)
    (h : p ∈ RegisterDecodersAsExtension.protocols c) : p ∈ c.builtin := by
  simp only [RegisterDecodersAsExtension.protocols, common.builtin, List.mem_cons,
    List.mem_singleton, List.not_mem_nil, or_false] at h ⊢
  tauto

/-- C16: each built-in constructor receives only the options it understands: for `influx`
and `influxdb` the decoder carries `option.FieldsExtend` and nothing of
`option.DisableUncompress`; for `raw` it carries `option.DisableUncompress` and nothing of
`option.FieldsExtend`; for every other built-in name the decoder is the same for all
options; and `GetDecoder(f)` is `GetDecoderWithOptions(f, Option{})` with both options
false. -/
theorem GetDecoderWithOptions_options (u : Unicode) (c : common) (now : time.Time)
    (reg : extensions.Registry) (f : GoString) (o o' : decoder.Option) (hc : c.Distinct) :
    ((TrimSpace u (ToLower u f) = c.ProtocolInflux ∨
        TrimSpace u (ToLower u f) = c.ProtocolInfluxdb) →
      GetDecoderWithOptions u c now reg f o = (some (Decoder.influxdb o.FieldsExtend), none) ∧
      (o.FieldsExtend = o'.FieldsExtend →
        GetDecoderWithOptions u c now reg f o = GetDecoderWithOptions u c now reg f o')) ∧
    (TrimSpace u (ToLower u f) = c.ProtocolRaw →
      GetDecoderWithOptions u c now reg f o = (some (Decoder.raw o.DisableUncompress), none) ∧
      (o.DisableUncompress = o'.DisableUncompress →
        GetDecoderWithOptions u c now reg f o = GetDecoderWithOptions u c now reg f o')) ∧
    (TrimSpace u (ToLower u f) ∈ [c.ProtocolSLS, c.ProtocolPrometheus, c.ProtocolStatsd,
        c.ProtocolOTLPLogV1, c.ProtocolOTLPMetricV1, c.ProtocolOTLPTraceV1,
        c.ProtocolPyroscope] →
      GetDecoderWithOptions u c now reg f o = GetDecoderWithOptions u c now reg f o') ∧
    GetDecoder u c now reg f = GetDecoderWithOptions u c now reg f
      { FieldsExtend := false, DisableUncompress := false } := by
  simp only [common.Distinct, common.builtin, List.nodup_cons, List.mem_cons, List.mem_singleton,
    not_or, List.not_mem_nil, not_false_eq_true, List.nodup_nil, and_true] at hc
  obtain ⟨⟨h12, h13, h14, h15, h16, h17, h18, h19, h1a⟩,
    ⟨h23, h24, h25, h26, h27, h28, h29, h2a⟩, ⟨h34, h35, h36, h37, h38, h39, h3a⟩,
    ⟨h45, h46, h47, h48, h49, h4a⟩, ⟨h56, h57, h58, h59, h5a⟩, ⟨h67, h68, h69, h6a⟩,
    ⟨h78, h79, h7a⟩, ⟨h89, h8a⟩, h9a⟩ := hc
  refine ⟨?_, ?_, ?_, rfl⟩
  · rintro (h | h) <;> refine ⟨?_, fun ho => ?_⟩ <;>
      simp [GetDecoderWithOptions, h, *, Ne.symm, eq_comm]
  · intro h
    refine ⟨?_, fun ho => ?_⟩ <;> simp [GetDecoderWithOptions, h, *, Ne.symm, eq_comm]
  · intro h
    simp only [List.mem_cons, List.mem_singleton, List.not_mem_nil, or_false] at h
    rcases h with h | h | h | h | h | h | h <;>
      simp [GetDecoderWithOptions, h, *, Ne.symm, eq_comm]

/-- C16, evaluated: with the sample constants, `"influx"` keeps `FieldsExtend` whatever
`DisableUncompress` is. -/
theorem GetDecoderWithOptions_options_witness :
    sampleCommon.Distinct ∧
    GetDecoderWithOptions sampleUnicode sampleCommon sampleNow sampleRegistry (lit "influx")
      ⟨true, false⟩ =
    GetDecoderWithOptions sampleUnicode sampleCommon sampleNow sampleRegistry (lit "influx")
      ⟨true, true⟩ :=
  ⟨by unfold common.Distinct; decide,
   ((GetDecoderWithOptions_options sampleUnicode sampleCommon sampleNow sampleRegistry
      (lit "influx") ⟨true, false⟩ ⟨true, true⟩ (by unfold common.Distinct; decide)).1
      (Or.inl (by decide))).2 rfl⟩

/-- C17: the panic of `creator` is unreachable for the ten registered names: the factory
registered under such a name returns, without panicking, the non-nil decoder that
`GetDecoder(name)` returns with a nil error, and it returns the same whatever the
extension registry holds, so the lookup that could lead back to the factory is never made;
each registered name is its own normal form. -/
theorem creator_returns (u : Unicode) (c : common) (now : time.Time)
    (reg reg' : extensions.Registry) (p : GoString) (hn : c.Normal u)
    (hp : p ∈ RegisterDecodersAsExtension.protocols c) :
    RegisterDecodersAsExtension.creator u c now reg p =
      Outcome.returned (GetDecoder u c now reg p).1 ∧
    (GetDecoder u c now reg p).1 ≠ none ∧
    (GetDecoder u c now reg p).2 = none ∧
    RegisterDecodersAsExtension.creator u c now reg' p =
      RegisterDecodersAsExtension.creator u c now reg p := by
  have hb : p ∈ c.builtin := protocols_subset_builtin c p hp
  have htag : TrimSpace u (ToLower u p) ∈ c.builtin := by rw [hn p hb]; exact hb
  obtain ⟨d, hd⟩ := GetDecoderWithOptions_of_builtin u c now p
    { FieldsExtend := false, DisableUncompress := false } htag
  simp only [RegisterDecodersAsExtension.creator, GetDecoder, hd reg, hd reg']
  exact ⟨trivial, by simp, trivial, trivial⟩

/-- C17, evaluated: with the sample constants, the factory registered for `raw` returns
the raw decoder, with or without extensions in the registry. -/
theorem creator_returns_witness :
    sampleCommon.Normal sampleUnicode ∧
    lit "raw" ∈ RegisterDecodersAsExtension.protocols sampleCommon ∧
    GetDecoder sampleUnicode sampleCommon sampleNow sampleRegistry (lit "raw") =
      (some (Decoder.raw false), none) ∧
    RegisterDecodersAsExtension.creator sampleUnicode sampleCommon sampleNow sampleRegistry
      (lit "raw") =
      Outcome.returned
        (GetDecoder sampleUnicode sampleCommon sampleNow sampleRegistry (lit "raw")).1 ∧
    RegisterDecodersAsExtension.creator sampleUnicode sampleCommon sampleNow sampleEmptyRegistry
      (lit "raw") =
      RegisterDecodersAsExtension.creator sampleUnicode sampleCommon sampleNow sampleRegistry
        (lit "raw") :=
  ⟨by unfold common.Normal; decide, by decide, by decide,
   (creator_returns sampleUnicode sampleCommon sampleNow sampleRegistry sampleEmptyRegistry
     (lit "raw")
     (by unfold common.Normal; decide) (by decide)).1,
   (creator_returns sampleUnicode sampleCommon sampleNow sampleRegistry sampleEmptyRegistry
     (lit "raw")
     (by unfold common.Normal; decide) (by decide)).2.2.2⟩

/-- C20: a built-in protocol cannot be shadowed by an extension: for every string whose
normal form is a built-in name, `GetDecoderWithOptions` returns the same for every state
of the extension registry, one with another factory registered under that very name
included; the extension lookup is made only when the normal form is not built-in. -/
theorem GetDecoderWithOptions_not_shadowed (u : Unicode) (c : common) (now : time.Time)
    (reg reg' : extensions.Registry) (f : GoString) (o : decoder.Option) :
    (TrimSpace u (ToLower u f) ∈ c.builtin →
      GetDecoderWithOptions u c now reg f o = GetDecoderWithOptions u c now reg' f o) ∧
    (TrimSpace u (ToLower u f) ∉ c.builtin →
      GetDecoderWithOptions u c now reg f o = extensions.CreateDecoder reg f o) ∧
    GetDecoderWithOptions sampleUnicode sampleCommon sampleNow
      (extensions.AddDecoderCreator sampleEmptyRegistry (lit "sls")
        (fun _ => Decoder.external 9)) (lit "sls") o =
      (some Decoder.sls, none) ∧
    extensions.CreateDecoder
      (extensions.AddDecoderCreator sampleEmptyRegistry (lit "sls")
        (fun _ => Decoder.external 9)) (lit "sls") o =
      (some (Decoder.external 9), none) := by
  refine ⟨?_, GetDecoderWithOptions_default u c now reg f o, ?_, ?_⟩
  · intro h
    obtain ⟨d, hd⟩ := GetDecoderWithOptions_of_builtin u c now f o h
    rw [hd reg, hd reg']
  · have htag : TrimSpace sampleUnicode (ToLower sampleUnicode (lit "sls")) =
        sampleCommon.ProtocolSLS := by decide
    simp only [GetDecoderWithOptions, htag, if_true]
  · have hl : List.find? (fun e => decide (id e.1 = id (lit "sls")))
        [(lit "sls", fun _ => Decoder.external 9)] =
        some (lit "sls", fun (_ : Unit) => Decoder.external 9) := by
      rw [List.find?_cons_of_pos]
      decide
    simp only [extensions.CreateDecoder, extensions.AddDecoderCreator, sampleEmptyRegistry, hl]

end Registration
